import Mathlib

/-!
Verification development for the context-graph code-graph ingestion engine
(Rust crate cg-core).  The data model, graph store and ingestion coordinator
are shallowly embedded from the source files model.rs, db.rs, parser.rs,
git.rs and ingest.rs; claims of the natural-language specification are then
settled as theorems about this embedding.
-/

deriving instance DecidableEq for Except

namespace ContextGraph

/-! ## model.rs: node and edge kinds -/

/-- Embedded from model.rs NodeType (closed enumeration). -/
inductive NodeType
  | Repository | Language | File | Directory | Function | Class | Interface
  | DataModel | Trait | Var | Import | Library | Endpoint | Request | Page
  | Instance
deriving DecidableEq

/-- Embedded from model.rs NodeType::as_str. -/
def NodeType.as_str : NodeType → String
  | .Repository => "Repository"
  | .Language => "Language"
  | .File => "File"
  | .Directory => "Directory"
  | .Function => "Function"
  | .Class => "Class"
  | .Interface => "Interface"
  | .DataModel => "DataModel"
  | .Trait => "Trait"
  | .Var => "Var"
  | .Import => "Import"
  | .Library => "Library"
  | .Endpoint => "Endpoint"
  | .Request => "Request"
  | .Page => "Page"
  | .Instance => "Instance"

/-- Embedded from model.rs EdgeType (closed enumeration). -/
inductive EdgeType
  | Contains | Calls | Imports | Handler | Renders | Implements | Uses
  | Of | Operand
deriving DecidableEq

/-- Embedded from model.rs EdgeType::as_str. -/
def EdgeType.as_str : EdgeType → String
  | .Contains => "Contains"
  | .Calls => "Calls"
  | .Imports => "Imports"
  | .Handler => "Handler"
  | .Renders => "Renders"
  | .Implements => "Implements"
  | .Uses => "Uses"
  | .Of => "Of"
  | .Operand => "Operand"

/-! ## model.rs: identity scheme -/

/-- Byte stream of a string, modelled at character granularity
(Rust `str::as_bytes` hands UTF-8 bytes to the hasher; we feed the
character codepoints, which determines the same string content). -/
def strBytes (s : String) : List Nat := s.data.map Char.toNat

/-- Embedded from model.rs: `u32::to_le_bytes`, the little-endian 32-bit
encoding of a line number. -/
def le32 (n : Nat) : List Nat :=
  [n % 256, n / 256 % 256, n / 256 ^ 2 % 256, n / 256 ^ 3 % 256]

/-- Two lowercase hex digits of a byte. -/
def byteHex (b : Nat) : String :=
  (Nat.digitChar (b % 256 / 16)).toString ++ (Nat.digitChar (b % 16)).toString

/-- Modelled from the spec: the hash itself is the external blake3 crate,
not code of this repository; the spec requires only a deterministic
cryptographic hash of the identity byte stream "rendered as lowercase hex".
We render the byte stream itself in lowercase hex, which is deterministic
and injective on byte streams. -/
def hashHex : List Nat → String
  | [] => ""
  | b :: t => byteHex b ++ hashHex t

/-- Embedded from model.rs Node::generate_id: hasher update order is
node-type name bytes, name bytes, file bytes, then the little-endian
encodings of start_line and end_line when present. -/
def idBytes (node_type : NodeType) (name file : String)
    (start_line end_line : Option Nat) : List Nat :=
  strBytes node_type.as_str ++ strBytes name ++ strBytes file ++
    (match start_line with | some sl => le32 sl | none => []) ++
    (match end_line with | some el => le32 el | none => [])

/-- Embedded from model.rs Node::generate_id. -/
def generate_id (node_type : NodeType) (name file : String)
    (start_line end_line : Option Nat) : String :=
  hashHex (idBytes node_type name file start_line end_line)

/-- Embedded from model.rs Node.  `meta` is the string-to-string mapping,
kept as an association list. -/
structure Node where
  id : String
  node_type : NodeType
  name : String
  file : String
  body : String
  start_line : Option Nat
  end_line : Option Nat
  meta : List (String × String)
deriving DecidableEq

/-- Embedded from model.rs Node::new. -/
def Node.new (node_type : NodeType) (name file : String) : Node :=
  { id := generate_id node_type name file none none
    node_type := node_type
    name := name
    file := file
    body := ""
    start_line := none
    end_line := none
    meta := [] }

/-- Embedded from model.rs Node::with_body: sets the body, id untouched. -/
def Node.with_body (n : Node) (body : String) : Node := { n with body := body }

/-- Embedded from model.rs Node::with_lines: sets both lines and
recomputes the id from (kind, name, file, lines). -/
def Node.with_lines (n : Node) (start_line end_line : Nat) : Node :=
  { n with
    start_line := some start_line
    end_line := some end_line
    id := generate_id n.node_type n.name n.file (some start_line) (some end_line) }

/-- Embedded from model.rs Node::with_meta: inserts into the meta map,
id untouched. -/
def Node.with_meta (n : Node) (key value : String) : Node :=
  { n with meta := (key, value) :: n.meta.filter (fun kv => kv.1 ≠ key) }

/-- Embedded from model.rs Edge. -/
structure Edge where
  from_id : String
  to_id : String
  edge_type : EdgeType
deriving DecidableEq

/-! ## db.rs: the embedded graph store

The Kuzu engine itself is an external collaborator; we embed the store at
the level of its three tables (Node rows, Edge rows, Metadata rows) and the
operations db.rs performs on them.  A node insert fails on a duplicate
primary key; an edge insert fails when an endpoint is missing (per spec
4.5, "the store returns error; caller decides"). -/

structure GraphDB where
  nodes : List Node
  edges : List Edge
  metadata : List (String × String)
deriving DecidableEq

def GraphDB.hasNodeId (db : GraphDB) (i : String) : Bool :=
  db.nodes.any (fun n => n.id == i)

/-- Embedded from db.rs Database::insert_node: CREATE of one Node row;
errors if the primary key `id` already exists. -/
def GraphDB.insert_node (db : GraphDB) (n : Node) : Except Unit GraphDB :=
  if db.hasNodeId n.id then .error ()
  else .ok { db with nodes := db.nodes ++ [n] }

/-- Embedded from db.rs Database::insert_edge: MATCH both endpoints by id
and CREATE the Edge row; errors when either endpoint is missing. -/
def GraphDB.insert_edge (db : GraphDB) (e : Edge) : Except Unit GraphDB :=
  if db.hasNodeId e.from_id && db.hasNodeId e.to_id then
    .ok { db with edges := db.edges ++ [e] }
  else .error ()

/-- Embedded from db.rs Database::delete_file_and_symbols: two sequential
queries.  (1) MATCH (f \x7bid: file_id\x7d)-[e:Edge \x7bedge_type:
'Contains'\x7d]->(s) DETACH DELETE s — every node that is the target of an
outbound Contains edge of the file node is deleted together with all its
incident edges.  (2) MATCH (f \x7bid: file_id\x7d) DETACH DELETE f — the
file node itself and its incident edges. -/
def containsTargets (db : GraphDB) (file_id : String) : List String :=
  (db.edges.filter
    (fun e => e.from_id == file_id && e.edge_type == EdgeType.Contains)).map
    (fun e => e.to_id)

def GraphDB.delete_file_and_symbols (db : GraphDB) (file_id : String) : GraphDB :=
  let targets := containsTargets db file_id
  let nodes1 := db.nodes.filter (fun n => !(targets.contains n.id))
  let edges1 := db.edges.filter
    (fun e => !(targets.contains e.from_id) && !(targets.contains e.to_id))
  { nodes := nodes1.filter (fun n => n.id != file_id)
    edges := edges1.filter (fun e => e.from_id != file_id && e.to_id != file_id)
    metadata := db.metadata }

/-- Embedded from db.rs Database::set_metadata: upsert into the Metadata
key/value table. -/
def setMeta (m : List (String × String)) (key value : String) :
    List (String × String) :=
  (key, value) :: m.filter (fun kv => kv.1 ≠ key)

def GraphDB.set_metadata (db : GraphDB) (key value : String) : GraphDB :=
  { db with metadata := setMeta db.metadata key value }

/-- Embedded from db.rs Database::get_metadata. -/
def GraphDB.get_metadata (db : GraphDB) (key : String) : Option String :=
  (db.metadata.find? (fun kv => kv.1 == key)).map (fun kv => kv.2)

/-- Embedded from db.rs Database::count_nodes_by_type. -/
def GraphDB.count_nodes_by_type (db : GraphDB) (t : NodeType) : Nat :=
  (db.nodes.filter (fun n => n.node_type == t)).length

/-- Embedded from db.rs Database::count_edges_by_type. -/
def GraphDB.count_edges_by_type (db : GraphDB) (t : EdgeType) : Nat :=
  (db.edges.filter (fun e => e.edge_type == t)).length

/-- Well-formedness of a store state: the Edge table is declared
FROM Node TO Node, so every edge endpoint references an existing node. -/
def GraphDB.WF (db : GraphDB) : Prop :=
  ∀ e ∈ db.edges, db.hasNodeId e.from_id = true ∧ db.hasNodeId e.to_id = true

/-! ## parser.rs: per-file output -/

/-- Embedded from parser.rs ParsedFile: entity nodes, intra-file edges and
the resolved (from_file, to_file) import pairs.  (ingest.rs also reads a
field `imports` that ParsedFile does not declare; it only feeds
resolve_cross_file_calls, which returns an empty list, so it has no
observable effect and is omitted.) -/
structure ParsedFile where
  nodes : List Node
  edges : List Edge
  import_edges : List (String × String)
deriving DecidableEq

/-! ## ingest.rs: the ingestion coordinator

Parsing (tree-sitter) and the filesystem/VCS probes are external effects;
the coordinator is embedded as a function of the parse results, the
repository probe outcome and the current revision. -/

structure IngestStats where
  files_processed : Nat
  symbols_created : Nat
  edges_created : Nat
deriving DecidableEq

structure IngestState where
  db : GraphDB
  stats : IngestStats
  had_errors : Bool
deriving DecidableEq

/-- Embedded from ingest.rs lines 154-173: insert one entity node and its
Contains edge from the file node.  A node-insert failure logs, sets
had_errors and continues with the next node (Rust `continue` on the inner
loop); an edge-insert failure likewise. -/
def persistEntity (file_node_id : String) (st : IngestState) (n : Node) :
    IngestState :=
  match st.db.insert_node n with
  | .error _ => { st with had_errors := true }
  | .ok db1 =>
    let st1 := { st with
      db := db1
      stats := { st.stats with symbols_created := st.stats.symbols_created + 1 } }
    match db1.insert_edge ⟨file_node_id, n.id, EdgeType.Contains⟩ with
    | .error _ => { st1 with had_errors := true }
    | .ok db2 =>
      { st1 with
        db := db2
        stats := { st1.stats with edges_created := st1.stats.edges_created + 1 } }

/-- The entity loop of ingest.rs lines 154-173. -/
def persistEntities (file_node_id : String) (st : IngestState) :
    List Node → IngestState
  | [] => st
  | n :: rest => persistEntities file_node_id (persistEntity file_node_id st n) rest

/-- Embedded from ingest.rs lines 175-182: insert one intra-file edge; a
failure logs, sets had_errors and continues with the next edge. -/
def persistIntraEdge (st : IngestState) (e : Edge) : IngestState :=
  match st.db.insert_edge e with
  | .error _ => { st with had_errors := true }
  | .ok db1 =>
    { st with
      db := db1
      stats := { st.stats with edges_created := st.stats.edges_created + 1 } }

/-- The intra-file edge loop of ingest.rs lines 175-182. -/
def persistIntraEdges (st : IngestState) : List Edge → IngestState
  | [] => st
  | e :: rest => persistIntraEdges (persistIntraEdge st e) rest

/-- The part of the per-file step after the cascade delete: insert the
fresh File node, run the entity loop and the intra-file edge loop, then
count the file as processed.  A file-node insert failure skips the
remainder of this file's batch (Rust `continue` on the outer loop). -/
def persistFileRest (st : IngestState) (f : String × ParsedFile) : IngestState :=
  let file_node := Node.new NodeType.File f.1 f.1
  match st.db.insert_node file_node with
  | .error _ => { st with had_errors := true }
  | .ok db1 =>
    let st1 := persistEntities file_node.id { st with db := db1 } f.2.nodes
    let st2 := persistIntraEdges st1 f.2.edges
    { st2 with stats :=
      { st2.stats with files_processed := st2.stats.files_processed + 1 } }

/-- Embedded from ingest.rs lines 134-185: the per-file persistence step.
Delete any existing file node with the same deterministic id (cascading
away its prior entities), then insert the file's batch. -/
def persistFile (st : IngestState) (f : String × ParsedFile) : IngestState :=
  persistFileRest
    { st with db :=
        st.db.delete_file_and_symbols (Node.new NodeType.File f.1 f.1).id } f

/-- The per-file loop of ingest.rs lines 134-185. -/
def persistFiles (st : IngestState) : List (String × ParsedFile) → IngestState
  | [] => st
  | f :: rest => persistFiles (persistFile st f) rest

/-- Embedded from ingest.rs lines 188-204: one cross-file Imports edge.
Synthetic File-node ids are built by name; a failure is logged at debug and
does not set had_errors. -/
def persistImportEdge (st : IngestState) (p : String × String) : IngestState :=
  let from_node := Node.new NodeType.File p.1 p.1
  let to_node := Node.new NodeType.File p.2 p.2
  match st.db.insert_edge ⟨from_node.id, to_node.id, EdgeType.Imports⟩ with
  | .error _ => st
  | .ok db1 =>
    { st with
      db := db1
      stats := { st.stats with edges_created := st.stats.edges_created + 1 } }

/-- The import-edge loop of ingest.rs lines 188-204. -/
def persistImportEdges (st : IngestState) : List (String × String) → IngestState
  | [] => st
  | p :: rest => persistImportEdges (persistImportEdge st p) rest

/-- Embedded from ingest.rs resolve_cross_file_calls: the declared design
slot currently returns an empty list. -/
def resolve_cross_file_calls : List Edge := []

/-- Embedded from ingest.rs lines 206-214: cross-file call edges; failures
are logged at debug only. -/
def persistCallEdges (st : IngestState) : List Edge → IngestState
  | [] => st
  | e :: rest =>
    match st.db.insert_edge e with
    | .error _ => persistCallEdges st rest
    | .ok db1 =>
      persistCallEdges { st with
        db := db1
        stats := { st.stats with edges_created := st.stats.edges_created + 1 } } rest

/-- Embedded from ingest.rs lines 106-116: all_import_edges collects each
parsed file's import pairs in order. -/
def allImportEdges (pfs : List (String × ParsedFile)) : List (String × String) :=
  pfs.foldl (fun acc f => acc ++ f.2.import_edges) []

/-- Outcome of a run of the coordinator: a clean return, a surfaced error
(the Rust `?` aborts), or a panic (an out-of-bounds string slice). -/
inductive RunResult
  | ok (st : IngestState)
  | aborted
  | panicked
deriving DecidableEq

/-- Embedded from ingest.rs ingest, lines 46-234 (persistence phase).
Inputs: the discovered project root, the parse results (read/parse
failures are already dropped, ingest.rs lines 64-94), whether the project
is a git repository, and the result of `git rev-parse HEAD` when invoked.
Step order: synthetic Repository and Language nodes are delete-then-
inserted; the per-file loop runs; then cross-file import edges; then
cross-file call edges; finally, only if no per-file error occurred and the
project is a repository, the current commit is stored as last_commit
metadata — after which line 222 slices `&commit[..8]`, a panic when the
commit string is shorter than 8 bytes. -/
def runIngest (root : String) (pfs : List (String × ParsedFile))
    (isRepo : Bool) (commit : Option String) (db0 : GraphDB) : RunResult :=
  let repository_node := Node.new NodeType.Repository root root
  let dbr := db0.delete_file_and_symbols repository_node.id
  match dbr.insert_node repository_node with
  | .error _ => .aborted
  | .ok db1 =>
    let language_node := Node.new NodeType.Language "typescript" root
    let dbl := db1.delete_file_and_symbols language_node.id
    match dbl.insert_node language_node with
    | .error _ => .aborted
    | .ok db2 =>
      let st0 : IngestState := ⟨db2, ⟨0, 0, 0⟩, false⟩
      let st1 := persistFiles st0 pfs
      let st2 := persistImportEdges st1 (allImportEdges pfs)
      let st3 := persistCallEdges st2 resolve_cross_file_calls
      if !st3.had_errors && isRepo then
        match commit with
        | some c =>
          let db' := st3.db.set_metadata "last_commit" c
          if 8 ≤ c.length then .ok { st3 with db := db' } else .panicked
        | none => .ok st3
      else .ok st3

/-! ## parser.rs: import resolution (lines 235-294)

The filesystem is external; `std::fs::canonicalize` is a parameter
`fs : String → Option String` (some canonical path on success). -/

/-- Embedded from parser.rs resolve_import_path: `Path::parent` of
the importing file, the portion before the last separator ("" when there is
none, matching `unwrap_or(Path::new(""))`). -/
def parentDir (p : String) : String :=
  match (p.splitOn "/").dropLast with
  | [] => ""
  | [""] => "/"
  | parts => String.intercalate "/" parts

/-- Embedded from parser.rs resolve_import_path: `from_dir.join(import_path)`
for the relative specifiers that reach it (Rust Path::join inserts one
separator; it does not normalize). -/
def pathJoin (d p : String) : String :=
  if d = "" then p
  else if d.endsWith "/" then d ++ p
  else d ++ "/" ++ p

/-- Embedded from parser.rs resolve_import_path lines 281-291: the suffix
list tried in order. -/
def importSuffixes : List String := ["", ".ts", ".tsx", "/index.ts", "/index.tsx"]

/-- The candidate loop of resolve_import_path: first candidate whose
canonicalization succeeds. -/
def tryCandidates (fs : String → Option String) (target : String) :
    List String → Option String
  | [] => none
  | ext :: rest =>
    match fs (target ++ ext) with
    | some canonical => some canonical
    | none => tryCandidates fs target rest

/-- Embedded from parser.rs resolve_import_path lines 269-294. -/
def resolve_import_path (fs : String → Option String)
    (from_file import_path : String) : Option String :=
  if !(import_path.startsWith ".") then none
  else
    let from_dir := parentDir from_file
    let target_path := pathJoin from_dir import_path
    tryCandidates fs target_path importSuffixes

/-- Embedded from parser.rs extract_import_edges lines 235-267: for
each import specifier (a tree-sitter string_fragment capture, given here
as the extracted list), a (from_file, resolved) pair when resolution succeeds. -/
def extract_import_edges (fs : String → Option String) (path : String)
    (specifiers : List String) : List (String × String) :=
  specifiers.filterMap (fun s =>
    (resolve_import_path fs path s).map (fun resolved => (path, resolved)))

/-! ## parser.rs: call attribution (lines 296-421)

The call sites are tree-sitter captures; each is a callee name together
with the row of the call expression. -/

/-- The range test of parser.rs find_containing_function lines 356-362:
both lines present and start_line ≤ line ≤ end_line. -/
def lineInRange (line : Nat) (f : Node) : Bool :=
  match f.start_line, f.end_line with
  | some s, some e => decide (s ≤ line) && decide (line ≤ e)
  | _, _ => false

/-- Embedded from parser.rs find_containing_function lines 355-363:
`functions.iter().find(..)`, the first function in the extraction list
whose [start_line, end_line] range contains the call's line. -/
def find_containing_function (line : Nat) (functions : List Node) : Option Node :=
  functions.find? (lineInRange line)

/-- Embedded from parser.rs extract_calls lines 296-353: for each call
site, attribute the call to the containing function and link to the local
function of the callee's name. -/
def extract_calls (sites : List (String × Nat)) (functions : List Node) :
    List Edge :=
  sites.filterMap (fun site =>
    match find_containing_function site.2 functions with
    | none => none
    | some caller =>
      match functions.find? (fun f => f.name == site.1) with
      | none => none
      | some callee => some ⟨caller.id, callee.id, EdgeType.Calls⟩)

/-- Embedded from parser.rs extract_constructor_calls lines 365-421: for
each new-expression site, attribute to the containing function and link to
the local class of the constructor's name. -/
def extract_constructor_calls (sites : List (String × Nat))
    (functions classes : List Node) : List Edge :=
  sites.filterMap (fun site =>
    match find_containing_function site.2 functions with
    | none => none
    | some caller =>
      match classes.find? (fun c => c.name == site.1) with
      | none => none
      | some cls => some ⟨caller.id, cls.id, EdgeType.Calls⟩)

/-! ## git.rs and ingest.rs: incremental file selection -/

/-- Embedded from git.rs FileChangeType. -/
inductive FileChangeType
  | Added
  | Modified
  | Deleted
  | Renamed (old_path : String)
deriving DecidableEq

/-- Embedded from git.rs FileChange. -/
structure FileChange where
  path : String
  change_type : FileChangeType
deriving DecidableEq

/-- Rust `Path::extension()`: the portion of the file name after the final
dot; none when there is no dot, or when the only dot is the leading one of
a hidden file. -/
def pathExtension (p : String) : Option String :=
  let name := match (p.splitOn "/").getLast? with
    | some n => n
    | none => p
  let parts := name.splitOn "."
  if parts.length ≤ 1 then none
  else if name.startsWith "." ∧ parts.length = 2 then none
  else parts.getLast?

/-- Embedded from ingest.rs line 308: the extension set of the incremental
filter. -/
def tsExtensions : List String := ["ts", "tsx", "d.ts"]

/-- The is_ts test of ingest.rs lines 315-318: a diff entry is kept iff
its path's extension is in tsExtensions. -/
def keepChange (c : FileChange) : Bool :=
  match pathExtension c.path with
  | some ext => tsExtensions.contains ext
  | none => false

/-- Embedded from ingest.rs get_incremental_changes lines 313-337: keep a
diff entry iff its path's extension is in tsExtensions, then partition:
Added and Modified paths to process, Deleted paths to delete, and a rename
deletes the old path and processes the new one. -/
def selectChanges : List FileChange → List String × List String
  | [] => ([], [])
  | c :: rest =>
    let acc := selectChanges rest
    if !keepChange c then acc
    else
      match c.change_type with
      | .Added => (c.path :: acc.1, acc.2)
      | .Modified => (c.path :: acc.1, acc.2)
      | .Deleted => (acc.1, c.path :: acc.2)
      | .Renamed old_path => (c.path :: acc.1, old_path :: acc.2)

/-- Outcome of get_incremental_changes: a surfaced error (`?`), the
unavailable case Ok(None), the usable case Ok(Some ..), or a panic from an
out-of-bounds slice of a revision string. -/
inductive IncResult
  | errored
  | unavailable
  | ready (toProcess toDelete : List String)
  | panicked
deriving DecidableEq

/-- Embedded from ingest.rs get_incremental_changes lines 278-350.
External effects are parameters: the repository probe, the stored
last_commit metadata, `git rev-parse HEAD`, and the name-status diff.
Line 298 slices `&current_commit[..8]` and line 341 slices
`&last_commit[..8]`; a slice of a string shorter than 8 bytes panics. -/
def get_incremental_changes (isRepo : Bool) (lastCommitMeta : Option String)
    (currentRev : Except Unit String)
    (diff : Except Unit (List FileChange)) : IncResult :=
  if !isRepo then .unavailable
  else
    match lastCommitMeta with
    | none => .unavailable
    | some last_commit =>
      match currentRev with
      | .error _ => .errored
      | .ok current_commit =>
        if last_commit == current_commit then
          if 8 ≤ current_commit.length then .ready [] [] else .panicked
        else
          match diff with
          | .error _ => .errored
          | .ok file_changes =>
            let sel := selectChanges file_changes
            if 8 ≤ last_commit.length then .ready sel.1 sel.2 else .panicked

/-! ## db.rs and query.rs: query-string escaping -/

/-- The single-quote character, written by code point. -/
def squote : Char := Char.ofNat 39

def squoteStr : String := squote.toString

/-- Replace every occurrence of the single character `pat` by the string
`rep`; this is what each `str::replace(char, ..)` call in
escape_kuzu_string performs. -/
def replaceChar (pat : Char) (rep : List Char) : List Char → List Char
  | [] => []
  | c :: t => (if c = pat then rep else [c]) ++ replaceChar pat rep t

/-- Embedded from db.rs escape_kuzu_string lines 8-15: the six chained
replaces, in source order — backslash, single quote, double quote,
newline, carriage return, tab. -/
def escapeChain (l : List Char) : List Char :=
  replaceChar '\t' ['\\', 't']
    (replaceChar '\r' ['\\', 'r']
      (replaceChar '\n' ['\\', 'n']
        (replaceChar '\"' ['\\', '\"']
          (replaceChar squote ['\\', squote]
            (replaceChar '\\' ['\\', '\\'] l)))))

def escape_kuzu_string (s : String) : String := String.mk (escapeChain s.data)

/-- The escaping mapping exactly as the spec states it, one character at a
time: backslash to backslash-backslash, single quote to backslash-quote,
double quote to backslash-double-quote, newline to \n, CR to \r, tab
to \t. -/
def escapeRules (c : Char) : List Char :=
  if c = '\\' then ['\\', '\\']
  else if c = squote then ['\\', squote]
  else if c = '\"' then ['\\', '\"']
  else if c = '\n' then ['\\', 'n']
  else if c = '\r' then ['\\', 'r']
  else if c = '\t' then ['\\', 't']
  else [c]

def escapeSpec (s : String) : String := String.mk (s.data.flatMap escapeRules)

/-- Embedded from query.rs find_callers lines 51-58: the symbol is
interpolated through `symbol.replace('\x27', "''")` — single quotes are
doubled, no backslash escaping. -/
def findCallersEscape (s : String) : String :=
  String.mk (replaceChar squote [squote, squote] s.data)

/-- Embedded from query.rs find_callers lines 51-58: the interpolated
query text. -/
def find_callers_query (symbol : String) : String :=
  "MATCH (caller:Node)-[e:Edge \x7bedge_type: " ++ squoteStr ++ "Calls" ++
    squoteStr ++ "\x7d]->(callee:Node) WHERE callee.name = " ++ squoteStr ++
    findCallersEscape symbol ++ squoteStr ++ " OR callee.id = " ++ squoteStr ++
    findCallersEscape symbol ++ squoteStr ++
    " RETURN caller.id, caller.node_type, caller.name, caller.file, caller.body, caller.start_line, caller.end_line, callee.name ORDER BY caller.name"

/-- Embedded from db.rs insert_node lines 89-107: every string field is
interpolated through escape_kuzu_string; missing lines encode as -1. -/
def insert_node_query (n : Node) : String :=
  let sl : Int := match n.start_line with | some l => (l : Int) | none => -1
  let el : Int := match n.end_line with | some l => (l : Int) | none => -1
  "CREATE (n:Node \x7bid: " ++ squoteStr ++ escape_kuzu_string n.id ++
    squoteStr ++ ", node_type: " ++ squoteStr ++ n.node_type.as_str ++
    squoteStr ++ ", name: " ++ squoteStr ++ escape_kuzu_string n.name ++
    squoteStr ++ ", file: " ++ squoteStr ++ escape_kuzu_string n.file ++
    squoteStr ++ ", body: " ++ squoteStr ++ escape_kuzu_string n.body ++
    squoteStr ++ ", start_line: " ++ toString sl ++ ", end_line: " ++
    toString el ++ "\x7d)"

/-- Embedded from db.rs insert_edge lines 109-120: both endpoint ids are
interpolated through escape_kuzu_string. -/
def insert_edge_query (e : Edge) : String :=
  "MATCH (a:Node \x7bid: " ++ squoteStr ++ escape_kuzu_string e.from_id ++
    squoteStr ++ "\x7d), (b:Node \x7bid: " ++ squoteStr ++
    escape_kuzu_string e.to_id ++ squoteStr ++
    "\x7d) CREATE (a)-[e:Edge \x7bedge_type: " ++ squoteStr ++
    e.edge_type.as_str ++ squoteStr ++ "\x7d]->(b)"

/-- Embedded from db.rs delete_file_and_symbols lines 196-207: the file id
is interpolated through escape_kuzu_string in both queries. -/
def delete_cascade_query (file_id : String) : String :=
  "MATCH (f:Node \x7bid: " ++ squoteStr ++ escape_kuzu_string file_id ++
    squoteStr ++ "\x7d)-[e:Edge \x7bedge_type: " ++ squoteStr ++ "Contains" ++
    squoteStr ++ "\x7d]->(s:Node) DETACH DELETE s"

def delete_file_query (file_id : String) : String :=
  "MATCH (f:Node \x7bid: " ++ squoteStr ++ escape_kuzu_string file_id ++
    squoteStr ++ "\x7d) DETACH DELETE f"

/-- A node built the way the source builds nodes: Node::new, then
with_body, then optionally with_lines, then any chain of with_meta. -/
def buildNode (t : NodeType) (name file : String) (lines : Option (Nat × Nat))
    (body : String) (metas : List (String × String)) : Node :=
  let n0 := (Node.new t name file).with_body body
  let n1 := match lines with
    | some le => n0.with_lines le.1 le.2
    | none => n0
  metas.foldl (fun n kv => n.with_meta kv.1 kv.2) n1

/-- Concrete witness data for the C4 cascade theorem: one File node for
"a.ts" containing one Function node. -/
def c4FileNode : Node := Node.new NodeType.File "a.ts" "a.ts"

def c4FuncNode : Node := (Node.new NodeType.Function "f" "a.ts").with_lines 0 2

def c4DB : GraphDB :=
  ⟨[c4FileNode, c4FuncNode], [⟨c4FileNode.id, c4FuncNode.id, EdgeType.Contains⟩], []⟩

/-! ## Claim C6: import resolution -/

/-- The candidate paths of one relative import, in trial order: the join
of the specifier to the importing file's directory, suffixed by each entry
of importSuffixes. -/
def importCandidates (path s : String) : List String :=
  importSuffixes.map (fun ext => pathJoin (parentDir path) s ++ ext)

/-- Witness for C9 on a concrete nesting: outer spans rows 0-10, inner
spans rows 2-8, and a call to "inner" at row 5 is attributed to outer
(the first-listed containing function), not to inner itself. -/
def c9Outer : Node := (Node.new NodeType.Function "outer" "t.ts").with_lines 0 10

def c9Inner : Node := (Node.new NodeType.Function "inner" "t.ts").with_lines 2 8

/-! ## Claim C3: per-file write-error containment -/

/-- Witness data for C3: two distinct Function entities of one file; the
parsed batch lists the first twice, so its second insert fails on the
duplicate primary key. -/
def c3E1 : Node := (Node.new NodeType.Function "a" "f.ts").with_lines 0 1

def c3E2 : Node := (Node.new NodeType.Function "b" "f.ts").with_lines 2 3

def c3Batch : ParsedFile := ⟨[c3E1, c3E1, c3E2], [], []⟩

def c3Start : IngestState := ⟨⟨[], [], []⟩, ⟨0, 0, 0⟩, false⟩

/-- Witness data for C2: an empty project in a repository at a 40-hex
revision. -/
def c2c : String := "0123456789abcdef0123456789abcdef01234567"

def c2state : IngestState :=
  ⟨⟨[Node.new NodeType.Repository "/r" "/r",
      Node.new NodeType.Language "typescript" "/r"], [],
    [("last_commit", c2c)]⟩, ⟨0, 0, 0⟩, false⟩

/-! ## Claim C1: idempotence of re-ingestion

The final state of a run is characterized explicitly; running again from
that state reproduces it.  The characterization needs the facts that hold
of genuine parser output: distinct deterministic ids for the nodes a run
creates, intra-file edges staying inside their file's entities, and import
pairs departing from their own file. -/

def ids (ns : List Node) : List String := ns.map (fun n => n.id)

def repoNodeOf (root : String) : Node := Node.new NodeType.Repository root root

def langNodeOf (root : String) : Node := Node.new NodeType.Language "typescript" root

def fileNodeOf (p : String) : Node := Node.new NodeType.File p p

def fileIdOf (p : String) : String := (fileNodeOf p).id

/-- The nodes one file's batch inserts, in insertion order. -/
def blockNodes (f : String × ParsedFile) : List Node := fileNodeOf f.1 :: f.2.nodes

/-- The edges one file's batch inserts, in insertion order: the Contains
edge of each entity, then the intra-file edges. -/
def blockEdges (f : String × ParsedFile) : List Edge :=
  f.2.nodes.map (fun n => ⟨fileIdOf f.1, n.id, EdgeType.Contains⟩) ++ f.2.edges

def blockIds (f : String × ParsedFile) : List String :=
  fileIdOf f.1 :: ids f.2.nodes

/-- Every id a run of the coordinator creates. -/
def createdIds (root : String) (pfs : List (String × ParsedFile)) : List String :=
  (repoNodeOf root).id :: (langNodeOf root).id :: pfs.flatMap blockIds

/-- The import edges that insert successfully against a node set. -/
def impInsert (ns : List Node) (ps : List (String × String)) : List Edge :=
  ps.filterMap (fun p =>
    if ns.any (fun n => n.id == fileIdOf p.1) && ns.any (fun n => n.id == fileIdOf p.2)
    then some ⟨fileIdOf p.1, fileIdOf p.2, EdgeType.Imports⟩ else none)

/-- The node table after a run, in insertion order. -/
def finalNodes (root : String) (pfs : List (String × ParsedFile))
    (db0 : GraphDB) : List Node :=
  db0.nodes ++ repoNodeOf root :: langNodeOf root :: pfs.flatMap blockNodes

/-- The edge table after a run. -/
def finalEdges (root : String) (pfs : List (String × ParsedFile))
    (db0 : GraphDB) : List Edge :=
  db0.edges ++ pfs.flatMap blockEdges ++
    impInsert (finalNodes root pfs db0) (allImportEdges pfs)

def sumSymbols (pfs : List (String × ParsedFile)) : Nat :=
  (pfs.map (fun f => f.2.nodes.length)).sum

def sumBlockEdges (pfs : List (String × ParsedFile)) : Nat :=
  (pfs.map (fun f => f.2.nodes.length + f.2.edges.length)).sum

/-- The statistics a clean run reports. -/
def finalStats (root : String) (pfs : List (String × ParsedFile))
    (db0 : GraphDB) : IngestStats :=
  ⟨pfs.length, sumSymbols pfs,
    sumBlockEdges pfs + (impInsert (finalNodes root pfs db0) (allImportEdges pfs)).length⟩

/-- The hypotheses under which a run is clean, all true of genuine parser
output over a store that does not yet hold this project's ids: the ids the
run creates are pairwise distinct; none of them is already a node id of
the starting state; the starting state is well-formed; intra-file edges
connect entities of their own file; and each import pair departs from its
own file. -/
structure CleanRun (root : String) (pfs : List (String × ParsedFile))
    (db0 : GraphDB) : Prop where
  nodup : (createdIds root pfs).Nodup
  fresh : ∀ n ∈ db0.nodes, n.id ∉ createdIds root pfs
  wf : db0.WF
  intra : ∀ f ∈ pfs, ∀ e ∈ f.2.edges,
    e.from_id ∈ ids f.2.nodes ∧ e.to_id ∈ ids f.2.nodes
  impFrom : ∀ f ∈ pfs, ∀ p ∈ f.2.import_edges, p.1 = f.1

/-- The node table midway through a re-run: the blocks of still-unprocessed
files sit where the previous run left them; the synthetic nodes and the
already re-processed blocks have been re-appended. -/
def nodesShape (root : String) (db0 : GraphDB)
    (rest done : List (String × ParsedFile)) : List Node :=
  db0.nodes ++ rest.flatMap blockNodes ++
    repoNodeOf root :: langNodeOf root :: done.flatMap blockNodes

/-- The import edges of the previous run not yet destroyed by the re-run's
per-file cascades. -/
def impRem (root : String) (pfs : List (String × ParsedFile)) (db0 : GraphDB)
    (done : List (String × ParsedFile)) : List Edge :=
  (impInsert (finalNodes root pfs db0) (allImportEdges pfs)).filter
    (fun e => decide (e.from_id ∉ done.flatMap blockIds)
      && decide (e.to_id ∉ done.flatMap blockIds))

/-- The edge table midway through a re-run. -/
def edgesShape (root : String) (pfs : List (String × ParsedFile))
    (db0 : GraphDB) (rest done : List (String × ParsedFile)) : List Edge :=
  db0.edges ++ rest.flatMap blockEdges ++ impRem root pfs db0 done ++
    done.flatMap blockEdges

/-- Metadata after the final step of a run with had_errors == false. -/
def mdAfter (isRepo : Bool) (commit : Option String)
    (md : List (String × String)) : List (String × String) :=
  if isRepo then
    match commit with
    | some c => setMeta md "last_commit" c
    | none => md
  else md

/-- Concrete clean-run instance for C1: one file with one function entity
and one import pair whose target file is not part of the project. -/
def c1pf : ParsedFile :=
  ⟨[(Node.new NodeType.Function "f" "a.ts").with_lines 1 2], [],
    [("a.ts", "b.ts")]⟩

def c1pfs : List (String × ParsedFile) := [("a.ts", c1pf)]

def c1db0 : GraphDB := ⟨[], [], []⟩

def c1commit : String := "0123456789abcdef0123456789abcdef01234567"

/-! ## Basic lemmas about the embedding -/

theorem with_meta_id (n : Node) (k v : String) : (n.with_meta k v).id = n.id := rfl

theorem with_body_id (n : Node) (b : String) : (n.with_body b).id = n.id := rfl

theorem buildNode_foldl_id (metas : List (String × String)) (n : Node) :
    (metas.foldl (fun m kv => m.with_meta kv.1 kv.2) n).id = n.id := by
  induction metas generalizing n with
  | nil => rfl
  | cons kv rest ih => simpa using ih (n.with_meta kv.1 kv.2)

theorem buildNode_id (t : NodeType) (name file : String)
    (lines : Option (Nat × Nat)) (body : String)
    (metas : List (String × String)) :
    (buildNode t name file lines body metas).id
      = generate_id t name file (lines.map Prod.fst) (lines.map Prod.snd) := by
  unfold buildNode
  rw [buildNode_foldl_id]
  cases lines with
  | none => rfl
  | some le => rfl

/-- Claim C5: a node's id is a deterministic pure function of
(node_type, name, file, start_line, end_line): it is the lowercase-hex
rendering of the hash of the node-type name bytes, then the name bytes,
then the file bytes, then the little-endian 32-bit encodings of the lines
when present; the body and meta fields never affect the id, so two nodes
built with equal (kind, name, file, line range) but arbitrary bodies and
meta maps receive identical ids. -/
theorem spec_C5_id_pure_function (t : NodeType) (name file : String)
    (lines : Option (Nat × Nat)) (body body' : String)
    (metas metas' : List (String × String)) :
    (buildNode t name file lines body metas).id
        = generate_id t name file (lines.map Prod.fst) (lines.map Prod.snd)
      ∧ (buildNode t name file lines body metas).id
        = (buildNode t name file lines body' metas').id
      ∧ generate_id t name file (lines.map Prod.fst) (lines.map Prod.snd)
        = hashHex (strBytes t.as_str ++ strBytes name ++ strBytes file ++
            (match lines.map Prod.fst with | some sl => le32 sl | none => []) ++
            (match lines.map Prod.snd with | some el => le32 el | none => [])) := by
  refine ⟨buildNode_id .., ?_, rfl⟩
  rw [buildNode_id, buildNode_id]

/-! ## Claim C4: the contains-only cascade -/

theorem delete_nodes_mem (db : GraphDB) (file_id : String) (n : Node) :
    n ∈ (db.delete_file_and_symbols file_id).nodes ↔
      n ∈ db.nodes ∧ n.id ∉ containsTargets db file_id ∧ n.id ≠ file_id := by
  simp [GraphDB.delete_file_and_symbols, containsTargets, and_assoc]
  tauto

theorem delete_edges_mem (db : GraphDB) (file_id : String) (e : Edge) :
    e ∈ (db.delete_file_and_symbols file_id).edges ↔
      e ∈ db.edges ∧ e.from_id ∉ containsTargets db file_id ∧
        e.to_id ∉ containsTargets db file_id ∧
        e.from_id ≠ file_id ∧ e.to_id ≠ file_id := by
  simp [GraphDB.delete_file_and_symbols, containsTargets, and_assoc]
  tauto

/-- Claim C4 (amended): for every well-formed graph state and file path,
delete_file_and_symbols of the File node's id deletes exactly the nodes
that are targets of an outbound Contains edge of that node plus the node
itself; every other node — in particular one connected to the file only
via Imports, Uses or Calls edges — is left untouched.  If additionally
every node whose `file` field equals the path is the File node itself or a
Contains-target of it (invariant I1 of states produced by ingestion), then
afterwards no node with that `file` field remains. -/
theorem spec_C4_contains_only_cascade (db : GraphDB) (fpath : String)
    (hwf : db.WF) :
    (∀ n : Node,
        n ∈ (db.delete_file_and_symbols (Node.new NodeType.File fpath fpath).id).nodes
          ↔ n ∈ db.nodes ∧
            n.id ∉ containsTargets db (Node.new NodeType.File fpath fpath).id ∧
            n.id ≠ (Node.new NodeType.File fpath fpath).id)
      ∧ ((∀ n ∈ db.nodes, n.file = fpath →
            n.id = (Node.new NodeType.File fpath fpath).id ∨
            n.id ∈ containsTargets db (Node.new NodeType.File fpath fpath).id) →
          ∀ n ∈ (db.delete_file_and_symbols (Node.new NodeType.File fpath fpath).id).nodes,
            n.file ≠ fpath) := by
  constructor
  · exact fun n => delete_nodes_mem db _ n
  · intro hinv n hn hfile
    rcases (delete_nodes_mem db _ n).1 hn with ⟨hmem, hnt, hnf⟩
    rcases hinv n hmem hfile with h | h
    · exact hnf h
    · exact hnt h

theorem spec_C4_witness :
    c4DB.WF ∧
      c4FuncNode ∉ (c4DB.delete_file_and_symbols
        (Node.new NodeType.File "a.ts" "a.ts").id).nodes :=
  ⟨by unfold GraphDB.WF c4DB; decide, fun h =>
    (((spec_C4_contains_only_cascade c4DB "a.ts"
        (by unfold GraphDB.WF c4DB; decide)).1 c4FuncNode).1 h).2.1
      (by decide)⟩

/-- Claim C4 as stated is false for general graph states: in a store
holding a single Function node whose `file` field is "a.ts" but which is
not a Contains-target of the File node for "a.ts", the cascade deletes
nothing, and a node with file == "a.ts" remains. -/
theorem spec_C4_counterexample :
    (GraphDB.delete_file_and_symbols
        ⟨[Node.new NodeType.Function "f" "a.ts"], [], []⟩
        (Node.new NodeType.File "a.ts" "a.ts").id).nodes
      = [Node.new NodeType.Function "f" "a.ts"]
    ∧ (Node.new NodeType.Function "f" "a.ts").file = "a.ts" := by
  constructor
  · rfl
  · rfl

theorem tryCandidates_eq_findSome (fs : String → Option String)
    (target : String) (exts : List String) :
    tryCandidates fs target exts = (exts.map (fun ext => target ++ ext)).findSome? fs := by
  induction exts with
  | nil => rfl
  | cons ext rest ih =>
    simp only [tryCandidates, List.map_cons, List.findSome?_cons]
    cases fs (target ++ ext) <;> simp [ih]

theorem resolve_import_path_spec (fs : String → Option String)
    (path s : String) :
    resolve_import_path fs path s =
      if s.startsWith "." then (importCandidates path s).findSome? fs
      else none := by
  unfold resolve_import_path importCandidates
  cases h : s.startsWith "." <;>
    simp [h, tryCandidates_eq_findSome]

/-- Claim C6: the parser emits a (from_file, to_file) pair for a specifier
iff the specifier is relative (begins with a dot) and some candidate
exists: the candidates are the join of the specifier to the importing
file's directory suffixed with "", ".ts", ".tsx", "/index.ts",
"/index.tsx", tried in exactly that order, and the target is the first
whose canonicalization succeeds; package specifiers and specifiers with no
existing candidate produce no pair. -/
theorem spec_C6_import_resolution (fs : String → Option String)
    (path : String) (specifiers : List String) :
    extract_import_edges fs path specifiers =
      specifiers.filterMap (fun s =>
        if s.startsWith "." then
          ((importCandidates path s).findSome? fs).map (fun r => (path, r))
        else none) := by
  unfold extract_import_edges
  refine List.filterMap_congr (fun s _ => ?_)
  rw [resolve_import_path_spec]
  cases h : s.startsWith "." <;> simp [h]

/-! ## Claim C7: incremental file selection -/

/-- Claim C7: the incremental selection keeps exactly the diff entries
whose extension is ts, tsx or d.ts; a kept Added or Modified entry puts
its path on the to-process list, a kept Deleted entry puts its path on the
to-delete list, and a kept Renamed entry puts the old path on the
to-delete list and the new path on the to-process list. -/
theorem spec_C7_incremental_selection (changes : List FileChange) :
    selectChanges changes =
      (changes.filterMap (fun c =>
          if keepChange c then
            match c.change_type with
            | .Added => some c.path
            | .Modified => some c.path
            | .Deleted => none
            | .Renamed _ => some c.path
          else none),
        changes.filterMap (fun c =>
          if keepChange c then
            match c.change_type with
            | .Added => none
            | .Modified => none
            | .Deleted => some c.path
            | .Renamed old_path => some old_path
          else none)) := by
  induction changes with
  | nil => rfl
  | cons c rest ih =>
    simp only [selectChanges, ih, List.filterMap_cons]
    cases hk : keepChange c <;> cases c.change_type <;> simp [hk]

/-! ## Claim C9: containing-function attribution is first-match -/

theorem find_first_containing (line : Nat) (pre post : List Node) (f : Node)
    (hf : lineInRange line f = true)
    (hpre : ∀ g ∈ pre, lineInRange line g = false) :
    find_containing_function line (pre ++ f :: post) = some f := by
  induction pre with
  | nil => simp [find_containing_function, List.find?_cons, hf]
  | cons g rest ih =>
    have hg : lineInRange line g = false := hpre g (by simp)
    have := ih (fun x hx => hpre x (by simp [hx]))
    simpa [find_containing_function, List.find?_cons, hg] using this

/-- Claim C9: when a call site's line lies inside the ranges of several
extracted functions (nested functions), find_containing_function returns
the first function in the parser's extraction order whose range contains
the line — and both call extraction and constructor-call extraction
attribute the call to exactly that function, never to a later-listed
(e.g. innermost) one. -/
theorem spec_C9_first_match_attribution (pre post : List Node) (f : Node)
    (line : Nat) (name : String) (classes : List Node)
    (hf : lineInRange line f = true)
    (hpre : ∀ g ∈ pre, lineInRange line g = false) :
    find_containing_function line (pre ++ f :: post) = some f
      ∧ (∀ callee, (pre ++ f :: post).find? (fun x => x.name == name) = some callee →
          extract_calls [(name, line)] (pre ++ f :: post)
            = [⟨f.id, callee.id, EdgeType.Calls⟩])
      ∧ (∀ cls, classes.find? (fun x => x.name == name) = some cls →
          extract_constructor_calls [(name, line)] (pre ++ f :: post) classes
            = [⟨f.id, cls.id, EdgeType.Calls⟩]) := by
  have hfirst := find_first_containing line pre post f hf hpre
  refine ⟨hfirst, ?_, ?_⟩
  · intro callee hc
    simp only [extract_calls, List.filterMap_cons, List.filterMap_nil, hfirst, hc]
  · intro cls hc
    simp only [extract_constructor_calls, List.filterMap_cons, List.filterMap_nil,
      hfirst, hc]

theorem spec_C9_witness :
    lineInRange 5 c9Inner = true ∧
      extract_calls [("inner", 5)] [c9Outer, c9Inner]
        = [⟨c9Outer.id, c9Inner.id, EdgeType.Calls⟩] :=
  ⟨by decide,
    (spec_C9_first_match_attribution [] [c9Inner] c9Outer 5 "inner" []
      (by decide) (by intro g hg; simp at hg)).2.1 c9Inner (by decide)⟩

/-! ## Claim C10: the `[..8]` revision slices -/

/-- Claim C10: get_incremental_changes indexes revision strings with the
fixed slice `[..8]`; the indexing is in-bounds only when the revisions are
at least 8 bytes long.  When both the stored last_commit and the current
revision have length at least 8, no panic occurs; but when the stored
last_commit is shorter than 8 bytes and differs from the current revision
while the diff succeeds, the incremental path panics rather than returning
an error or falling back to full ingestion. -/
theorem spec_C10_short_commit_panics (lc c : String) (chs : List FileChange) :
    (8 ≤ lc.length → 8 ≤ c.length →
        get_incremental_changes true (some lc) (.ok c) (.ok chs) ≠ .panicked)
      ∧ (lc.length < 8 → lc ≠ c →
        get_incremental_changes true (some lc) (.ok c) (.ok chs) = .panicked) := by
  constructor
  · intro hlc hc
    unfold get_incremental_changes
    by_cases h : lc = c <;> simp [h, hc, hlc]
  · intro hlc hne
    unfold get_incremental_changes
    have : (lc == c) = false := by simp [hne]
    simp [this, hne, Nat.not_le.mpr hlc]

/-- Witness for C10: a stored 7-character abbreviated revision (which git
accepts for diffing) together with a full 40-character current revision
panics the incremental path. -/
theorem spec_C10_witness :
    ("abc1234" : String).length < 8 ∧
      get_incremental_changes true (some "abc1234")
          (.ok "0123456789abcdef0123456789abcdef01234567") (.ok []) = .panicked :=
  ⟨by decide,
    (spec_C10_short_commit_panics "abc1234"
        "0123456789abcdef0123456789abcdef01234567" []).2
      (by decide) (by decide)⟩

/-! ## Claim C8: query-string escaping -/

theorem replaceChar_flat (p : Char) (rep : List Char) (l : List Char) :
    replaceChar p rep l = l.flatMap (fun c => if c = p then rep else [c]) := by
  induction l with
  | nil => rfl
  | cons c t ih => simp [replaceChar, ih]

theorem replaceChar_append (p : Char) (rep : List Char) (l1 l2 : List Char) :
    replaceChar p rep (l1 ++ l2) = replaceChar p rep l1 ++ replaceChar p rep l2 := by
  simp [replaceChar_flat]

theorem escapeChain_append (l1 l2 : List Char) :
    escapeChain (l1 ++ l2) = escapeChain l1 ++ escapeChain l2 := by
  simp [escapeChain, replaceChar_append]

theorem escapeChain_cons (c : Char) (t : List Char) :
    escapeChain (c :: t) = escapeRules c ++ escapeChain t := by
  rw [show (c :: t) = [c] ++ t from rfl, escapeChain_append]
  congr 1
  by_cases h1 : c = '\\'
  · subst h1; decide
  by_cases h2 : c = squote
  · subst h2; decide
  by_cases h3 : c = '\"'
  · subst h3; decide
  by_cases h4 : c = '\n'
  · subst h4; decide
  by_cases h5 : c = '\r'
  · subst h5; decide
  by_cases h6 : c = '\t'
  · subst h6; decide
  simp [escapeChain, replaceChar, escapeRules, h1, h2, h3, h4, h5, h6]

theorem escapeChain_flat (l : List Char) : escapeChain l = l.flatMap escapeRules := by
  induction l with
  | nil => rfl
  | cons c t ih => rw [escapeChain_cons, ih, List.flatMap_cons]

/-- Claim C8 (amended): the strings interpolated by the store layer — node
fields in insert_node, endpoint ids in insert_edge and
delete_file_and_symbols — pass through escape_kuzu_string, which realizes
exactly the claimed character mapping (backslash to double backslash,
single quote to backslash-quote, double quote to backslash-double-quote,
newline to \n, CR to \r, tab to \t); the query surface deviates from it:
find_callers doubles single quotes instead, which differs from the claimed
mapping on the single-quote string (and find_symbol regex-escapes its
pattern rather than applying this mapping). -/
theorem spec_C8_escaping_amended :
    (∀ s : String, escape_kuzu_string s = escapeSpec s)
      ∧ (∀ s : String, findCallersEscape s
          = String.mk (s.data.flatMap
              (fun c => if c = squote then [squote, squote] else [c])))
      ∧ findCallersEscape squote.toString ≠ escapeSpec squote.toString := by
  refine ⟨fun s => ?_, fun s => ?_, by decide⟩
  · unfold escape_kuzu_string escapeSpec
    rw [escapeChain_flat]
  · unfold findCallersEscape
    rw [replaceChar_flat]

/-- Claim C8 as stated is false for the query surface: find_callers
escapes its symbol by doubling single quotes, so on the one-character
single-quote string it produces two quotes where the claimed mapping
produces backslash-quote. -/
theorem spec_C8_counterexample :
    findCallersEscape squote.toString = String.mk [squote, squote]
      ∧ escape_kuzu_string squote.toString = String.mk ['\\', squote]
      ∧ findCallersEscape squote.toString ≠ escape_kuzu_string squote.toString := by
  decide

/-- Claim C3 (amended): a failing insert during the per-file step sets
had_errors and skips only the failing item, not the remainder of the
file's batch — a failed entity-node insert continues with the file's next
entity, a failed intra-file-edge insert continues with the file's next
edge, and the per-file loop always continues with the next file (only a
file-node insert failure skips the rest of that file's batch). -/
theorem spec_C3_error_containment_amended (st : IngestState) (fid : String)
    (n : Node) (rest : List Node) (e : Edge) (erest : List Edge)
    (f : String × ParsedFile) (fs : List (String × ParsedFile)) :
    (st.db.insert_node n = .error () →
        persistEntities fid st (n :: rest)
          = persistEntities fid { st with had_errors := true } rest)
      ∧ (st.db.insert_edge e = .error () →
        persistIntraEdges st (e :: erest)
          = persistIntraEdges { st with had_errors := true } erest)
      ∧ persistFiles st (f :: fs) = persistFiles (persistFile st f) fs := by
  refine ⟨fun h => ?_, fun h => ?_, rfl⟩
  · simp only [persistEntities, persistEntity, h]
  · simp only [persistIntraEdges, persistIntraEdge, h]

theorem spec_C3_witness :
    (⟨⟨[c3E1], [], []⟩, ⟨0, 0, 0⟩, false⟩ : IngestState).db.insert_node c3E1
        = .error ()
      ∧ persistEntities "fid" ⟨⟨[c3E1], [], []⟩, ⟨0, 0, 0⟩, false⟩ [c3E1, c3E2]
        = persistEntities "fid" ⟨⟨[c3E1], [], []⟩, ⟨0, 0, 0⟩, true⟩ [c3E2] :=
  ⟨by decide,
    (spec_C3_error_containment_amended ⟨⟨[c3E1], [], []⟩, ⟨0, 0, 0⟩, false⟩ "fid"
        c3E1 [c3E2] ⟨"", "", EdgeType.Calls⟩ [] ("", ⟨[], [], []⟩) []).1
      (by decide)⟩

/-- Claim C3 as stated is false: in a batch whose second entity insert
fails (duplicate id), the remainder of the file's batch is not skipped —
the third entity is still inserted and counted, while had_errors is set. -/
theorem spec_C3_counterexample :
    (persistFile c3Start ("f.ts", c3Batch)).had_errors = true
      ∧ c3E2 ∈ (persistFile c3Start ("f.ts", c3Batch)).db.nodes
      ∧ (persistFile c3Start ("f.ts", c3Batch)).stats.symbols_created = 2 := by
  decide

/-! ## Claim C2: last_commit metadata discipline -/

theorem insert_node_metadata {db db' : GraphDB} {n : Node}
    (h : db.insert_node n = .ok db') : db'.metadata = db.metadata := by
  unfold GraphDB.insert_node at h
  split at h
  · cases h
  · cases h; rfl

theorem insert_edge_metadata {db db' : GraphDB} {e : Edge}
    (h : db.insert_edge e = .ok db') : db'.metadata = db.metadata := by
  unfold GraphDB.insert_edge at h
  split at h
  · cases h; rfl
  · cases h

theorem delete_metadata (db : GraphDB) (fid : String) :
    (db.delete_file_and_symbols fid).metadata = db.metadata := rfl

theorem persistEntity_metadata (fid : String) (st : IngestState) (n : Node) :
    (persistEntity fid st n).db.metadata = st.db.metadata := by
  simp only [persistEntity]
  split
  · rfl
  · rename_i db1 h1
    split
    · simpa using insert_node_metadata h1
    · rename_i db2 h2
      simpa [insert_edge_metadata h2] using insert_node_metadata h1

theorem persistEntities_metadata (fid : String) (st : IngestState)
    (ns : List Node) :
    (persistEntities fid st ns).db.metadata = st.db.metadata := by
  induction ns generalizing st with
  | nil => rfl
  | cons n rest ih =>
    rw [persistEntities, ih, persistEntity_metadata]

theorem persistIntraEdge_metadata (st : IngestState) (e : Edge) :
    (persistIntraEdge st e).db.metadata = st.db.metadata := by
  simp only [persistIntraEdge]
  split
  · rfl
  · rename_i db1 h1
    simpa using insert_edge_metadata h1

theorem persistIntraEdges_metadata (st : IngestState) (es : List Edge) :
    (persistIntraEdges st es).db.metadata = st.db.metadata := by
  induction es generalizing st with
  | nil => rfl
  | cons e rest ih =>
    rw [persistIntraEdges, ih, persistIntraEdge_metadata]

theorem persistFileRest_metadata (st : IngestState) (f : String × ParsedFile) :
    (persistFileRest st f).db.metadata = st.db.metadata := by
  simp only [persistFileRest]
  split
  · rfl
  · rename_i db1 h1
    simp only [persistIntraEdges_metadata, persistEntities_metadata]
    simpa using insert_node_metadata h1

theorem persistFile_metadata (st : IngestState) (f : String × ParsedFile) :
    (persistFile st f).db.metadata = st.db.metadata := by
  unfold persistFile
  rw [persistFileRest_metadata]
  exact delete_metadata st.db _

theorem persistFiles_metadata (st : IngestState)
    (fs : List (String × ParsedFile)) :
    (persistFiles st fs).db.metadata = st.db.metadata := by
  induction fs generalizing st with
  | nil => rfl
  | cons f rest ih =>
    rw [persistFiles, ih, persistFile_metadata]

theorem persistImportEdge_metadata (st : IngestState) (p : String × String) :
    (persistImportEdge st p).db.metadata = st.db.metadata := by
  simp only [persistImportEdge]
  split
  · rfl
  · rename_i db1 h1
    simpa using insert_edge_metadata h1

theorem persistImportEdges_metadata (st : IngestState)
    (ps : List (String × String)) :
    (persistImportEdges st ps).db.metadata = st.db.metadata := by
  induction ps generalizing st with
  | nil => rfl
  | cons p rest ih =>
    rw [persistImportEdges, ih, persistImportEdge_metadata]

theorem get_set_metadata (db : GraphDB) (k v : String) :
    (db.set_metadata k v).get_metadata k = some v := by
  simp [GraphDB.set_metadata, GraphDB.get_metadata, setMeta]

/-- Claim C2: after an ingestion over a VCS repository that finishes with
had_errors == false, the last_commit metadata equals the current HEAD
revision; after an ingestion that finishes with had_errors == true, the
metadata table — and hence last_commit — is unchanged from before the
run. -/
theorem spec_C2_last_commit (root : String) (pfs : List (String × ParsedFile))
    (db0 : GraphDB) (c : String) (isRepo : Bool) (commit : Option String)
    (st st' : IngestState) :
    (runIngest root pfs true (some c) db0 = .ok st → st.had_errors = false →
        st.db.get_metadata "last_commit" = some c)
      ∧ (runIngest root pfs isRepo commit db0 = .ok st' →
        st'.had_errors = true → st'.db.metadata = db0.metadata) := by
  constructor
  · intro h hE
    simp only [runIngest] at h
    split at h
    · cases h
    · split at h
      · cases h
      · split at h
        · split at h
          · cases h
            exact get_set_metadata _ _ _
          · cases h
        · cases h
          rename_i hcond
          simp only [Bool.and_eq_true, Bool.not_eq_eq_eq_not, Bool.not_true] at hcond
          rw [hE] at hcond
          simp at hcond
  · intro h hE
    simp only [runIngest] at h
    split at h
    case h_1 => cases h
    case h_2 db1 hins1 =>
      split at h
      case h_1 => cases h
      case h_2 db2 hins2 =>
        have hmeta : (persistCallEdges
            (persistImportEdges (persistFiles ⟨db2, ⟨0, 0, 0⟩, false⟩ pfs)
              (allImportEdges pfs)) resolve_cross_file_calls).db.metadata
            = db0.metadata := by
          simp only [resolve_cross_file_calls, persistCallEdges,
            persistImportEdges_metadata, persistFiles_metadata]
          rw [show db2.metadata = db0.metadata from by
            rw [insert_node_metadata hins2, delete_metadata,
              insert_node_metadata hins1, delete_metadata]]
        split at h
        · split at h
          · split at h
            · cases h
              simp_all
            · cases h
          · cases h
            exact hmeta
        · cases h
          exact hmeta

theorem spec_C2_witness :
    runIngest "/r" [] true (some c2c) ⟨[], [], []⟩ = .ok c2state
      ∧ c2state.db.get_metadata "last_commit" = some c2c :=
  ⟨by decide,
    (spec_C2_last_commit "/r" [] ⟨[], [], []⟩ c2c true (some c2c)
        c2state c2state).1 (by decide) rfl⟩

theorem mem_ids {ns : List Node} {i : String} :
    i ∈ ids ns ↔ ∃ n ∈ ns, n.id = i := by
  simp [ids, List.mem_map]

theorem anyId_true {ns : List Node} {i : String} :
    (ns.any (fun n => n.id == i)) = true ↔ i ∈ ids ns := by
  simp [List.any_eq_true, mem_ids]

theorem hasNodeId_iff {db : GraphDB} {i : String} :
    db.hasNodeId i = true ↔ i ∈ ids db.nodes := anyId_true

theorem insert_node_fresh {db : GraphDB} {n : Node} (h : n.id ∉ ids db.nodes) :
    db.insert_node n = .ok { db with nodes := db.nodes ++ [n] } := by
  have : db.hasNodeId n.id = false := by
    rw [Bool.eq_false_iff]
    intro hc
    exact h (hasNodeId_iff.1 hc)
  simp [GraphDB.insert_node, this]

theorem insert_edge_present {db : GraphDB} {e : Edge}
    (h1 : e.from_id ∈ ids db.nodes) (h2 : e.to_id ∈ ids db.nodes) :
    db.insert_edge e = .ok { db with edges := db.edges ++ [e] } := by
  simp [GraphDB.insert_edge, hasNodeId_iff.2 h1, hasNodeId_iff.2 h2]

theorem containsTargets_nil {db : GraphDB} {fid : String}
    (h : ∀ e ∈ db.edges, e.from_id = fid → e.edge_type ≠ EdgeType.Contains) :
    containsTargets db fid = [] := by
  unfold containsTargets
  rw [List.filter_eq_nil.mpr, List.map_nil]
  intro e he
  simp only [Bool.and_eq_true, beq_iff_eq, not_and]
  intro hf ht
  exact h e he hf ht

theorem delete_noop {db : GraphDB} {fid : String} (hwf : db.WF)
    (h : fid ∉ ids db.nodes) : db.delete_file_and_symbols fid = db := by
  have hfrom : ∀ e ∈ db.edges, e.from_id ≠ fid := by
    intro e he heq
    exact h (heq ▸ hasNodeId_iff.1 (hwf e he).1)
  have hto : ∀ e ∈ db.edges, e.to_id ≠ fid := by
    intro e he heq
    exact h (heq ▸ hasNodeId_iff.1 (hwf e he).2)
  have htgt : containsTargets db fid = [] :=
    containsTargets_nil (fun e he hf _ => hfrom e he hf)
  obtain ⟨ns, es, md⟩ := db
  unfold GraphDB.delete_file_and_symbols
  rw [htgt]
  simp only [List.contains_nil, Bool.not_false, Bool.and_self, List.filter_true,
    GraphDB.mk.injEq]
  refine ⟨?_, ?_, trivial⟩
  · refine List.filter_eq_self.mpr (fun n hn => ?_)
    simp only [bne_iff_ne, ne_eq]
    intro heq
    exact h (heq ▸ mem_ids.2 ⟨n, hn, rfl⟩)
  · refine List.filter_eq_self.mpr (fun e he => ?_)
    simp [hfrom e he, hto e he]

theorem ids_append (a b : List Node) : ids (a ++ b) = ids a ++ ids b := by
  simp [ids]

theorem ids_cons (n : Node) (a : List Node) : ids (n :: a) = n.id :: ids a := rfl

theorem persistEntities_ok (fid : String) (ents : List Node) (st : IngestState)
    (hfid : fid ∈ ids st.db.nodes)
    (hfresh : ∀ n ∈ ents, n.id ∉ ids st.db.nodes)
    (hnodup : (ids ents).Nodup) :
    persistEntities fid st ents =
      { db := { st.db with
          nodes := st.db.nodes ++ ents
          edges := st.db.edges ++
            ents.map (fun n => ⟨fid, n.id, EdgeType.Contains⟩) }
        stats := { st.stats with
          symbols_created := st.stats.symbols_created + ents.length
          edges_created := st.stats.edges_created + ents.length }
        had_errors := st.had_errors } := by
  induction ents generalizing st with
  | nil =>
    obtain ⟨⟨ns, es, md⟩, ⟨a, b, c⟩, he⟩ := st
    simp [persistEntities]
  | cons n rest ih =>
    have h1 : st.db.insert_node n
        = .ok { st.db with nodes := st.db.nodes ++ [n] } :=
      insert_node_fresh (hfresh n (by simp))
    have h2 : ({ st.db with nodes := st.db.nodes ++ [n] } : GraphDB).insert_edge
        ⟨fid, n.id, EdgeType.Contains⟩
        = .ok { st.db with
            nodes := st.db.nodes ++ [n]
            edges := st.db.edges ++ [⟨fid, n.id, EdgeType.Contains⟩] } :=
      insert_edge_present (by simp [ids_append]; exact Or.inl hfid)
        (by simp [ids_append, ids_cons])
    rw [persistEntities]
    have hpe : persistEntity fid st n =
        { db := { st.db with
            nodes := st.db.nodes ++ [n]
            edges := st.db.edges ++ [⟨fid, n.id, EdgeType.Contains⟩] }
          stats := { st.stats with
            symbols_created := st.stats.symbols_created + 1
            edges_created := st.stats.edges_created + 1 }
          had_errors := st.had_errors } := by
      simp only [persistEntity, h1, h2]
    rw [hpe, ih]
    · simp only [ids_cons, List.nodup_cons] at hnodup
      simp [List.append_assoc, Nat.add_assoc, Nat.add_comm 1]
    · simpa [ids_append] using Or.inl hfid
    · intro m hm
      simp only [ids_append, List.mem_append]
      rintro (hin | hin)
      · exact hfresh m (by simp [hm]) hin
      · simp only [ids, List.map_cons, List.map_nil, List.mem_singleton] at hin
        simp only [ids_cons, List.nodup_cons] at hnodup
        exact hnodup.1 (hin ▸ mem_ids.2 ⟨m, hm, rfl⟩)
    · simp only [ids_cons, List.nodup_cons] at hnodup
      exact hnodup.2

theorem persistIntraEdges_ok (es : List Edge) (st : IngestState)
    (h : ∀ e ∈ es, e.from_id ∈ ids st.db.nodes ∧ e.to_id ∈ ids st.db.nodes) :
    persistIntraEdges st es =
      { st with
        db := { st.db with edges := st.db.edges ++ es }
        stats := { st.stats with
          edges_created := st.stats.edges_created + es.length } } := by
  induction es generalizing st with
  | nil =>
    obtain ⟨⟨ns, es', md⟩, ⟨a, b, c⟩, he⟩ := st
    simp [persistIntraEdges]
  | cons e rest ih =>
    have h1 : st.db.insert_edge e = .ok { st.db with edges := st.db.edges ++ [e] } :=
      insert_edge_present (h e (by simp)).1 (h e (by simp)).2
    rw [persistIntraEdges]
    have hpe : persistIntraEdge st e =
        { st with
          db := { st.db with edges := st.db.edges ++ [e] }
          stats := { st.stats with
            edges_created := st.stats.edges_created + 1 } } := by
      simp only [persistIntraEdge, h1]
    rw [hpe, ih]
    · simp [List.append_assoc, Nat.add_assoc, Nat.add_comm 1]
    · intro e' he'
      exact h e' (by simp [he'])

theorem persistFileRest_ok (st : IngestState) (f : String × ParsedFile)
    (hfid : fileIdOf f.1 ∉ ids st.db.nodes)
    (hents : ∀ n ∈ f.2.nodes, n.id ∉ ids st.db.nodes ∧ n.id ≠ fileIdOf f.1)
    (hnodup : (ids f.2.nodes).Nodup)
    (hintra : ∀ e ∈ f.2.edges,
      e.from_id ∈ ids f.2.nodes ∧ e.to_id ∈ ids f.2.nodes) :
    persistFileRest st f =
      { db := { st.db with
          nodes := st.db.nodes ++ blockNodes f
          edges := st.db.edges ++ blockEdges f }
        stats := { st.stats with
          files_processed := st.stats.files_processed + 1
          symbols_created := st.stats.symbols_created + f.2.nodes.length
          edges_created := st.stats.edges_created +
            (f.2.nodes.length + f.2.edges.length) }
        had_errors := st.had_errors } := by
  have h1 : st.db.insert_node (Node.new NodeType.File f.1 f.1)
      = .ok { st.db with nodes := st.db.nodes ++ [Node.new NodeType.File f.1 f.1] } :=
    insert_node_fresh hfid
  have hstep := persistEntities_ok (Node.new NodeType.File f.1 f.1).id f.2.nodes
    { st with db := { st.db with
        nodes := st.db.nodes ++ [Node.new NodeType.File f.1 f.1] } }
    (by simp [ids_append, ids_cons, fileIdOf, fileNodeOf])
    (by
      intro n hn
      simp only [ids_append, List.mem_append]
      rintro (hin | hin)
      · exact (hents n hn).1 hin
      · simp only [ids, List.map_cons, List.map_nil, List.mem_singleton] at hin
        exact (hents n hn).2 hin)
    hnodup
  have hstep2 := persistIntraEdges_ok f.2.edges
    (persistEntities (Node.new NodeType.File f.1 f.1).id
      { st with db := { st.db with
          nodes := st.db.nodes ++ [Node.new NodeType.File f.1 f.1] } } f.2.nodes)
    (by
      rw [hstep]
      intro e he
      have h' := hintra e he
      simp only [ids_append, List.mem_append]
      tauto)
  simp only [persistFileRest, h1]
  rw [hstep2, hstep]
  simp [blockNodes, blockEdges, fileNodeOf, fileIdOf, List.append_assoc,
    Nat.add_assoc, Nat.add_comm 1]

theorem impInsert_cons (ns : List Node) (p : String × String)
    (rest : List (String × String)) :
    impInsert ns (p :: rest) =
      (if (ns.any (fun n => n.id == fileIdOf p.1)
          && ns.any (fun n => n.id == fileIdOf p.2)) = true
        then [⟨fileIdOf p.1, fileIdOf p.2, EdgeType.Imports⟩] else [])
        ++ impInsert ns rest := by
  simp only [impInsert, List.filterMap_cons]
  by_cases hcond : (ns.any (fun n => n.id == fileIdOf p.1)
      && ns.any (fun n => n.id == fileIdOf p.2)) = true
  · simp [hcond]
  · simp [hcond]

theorem persistImportEdges_ok (ps : List (String × String)) (st : IngestState) :
    persistImportEdges st ps =
      { st with
        db := { st.db with edges := st.db.edges ++ impInsert st.db.nodes ps }
        stats := { st.stats with
          edges_created := st.stats.edges_created +
            (impInsert st.db.nodes ps).length } } := by
  induction ps generalizing st with
  | nil =>
    obtain ⟨⟨ns, es, md⟩, ⟨a, b, c⟩, he⟩ := st
    simp [persistImportEdges, impInsert]
  | cons p rest ih =>
    obtain ⟨⟨ns, es, md⟩, ⟨a, b, c⟩, he⟩ := st
    rw [persistImportEdges, impInsert_cons]
    by_cases hcond : (ns.any (fun n => n.id == fileIdOf p.1)
        && ns.any (fun n => n.id == fileIdOf p.2)) = true
    · have hpe : persistImportEdge ⟨⟨ns, es, md⟩, ⟨a, b, c⟩, he⟩ p
          = ⟨⟨ns, es ++ [⟨fileIdOf p.1, fileIdOf p.2, EdgeType.Imports⟩], md⟩,
            ⟨a, b, c + 1⟩, he⟩ := by
        simp only [fileIdOf, fileNodeOf] at hcond
        simp only [persistImportEdge, GraphDB.insert_edge, GraphDB.hasNodeId,
          fileIdOf, fileNodeOf]
        rw [if_pos hcond]
    -- the insert succeeds and appends one Imports edge
      rw [hpe, ih]
      simp [hcond, List.append_assoc, Nat.add_assoc, Nat.add_comm 1]
    · have hpe : persistImportEdge ⟨⟨ns, es, md⟩, ⟨a, b, c⟩, he⟩ p
          = ⟨⟨ns, es, md⟩, ⟨a, b, c⟩, he⟩ := by
        simp only [fileIdOf, fileNodeOf] at hcond
        simp only [persistImportEdge, GraphDB.insert_edge, GraphDB.hasNodeId,
          fileIdOf, fileNodeOf]
        rw [if_neg hcond]
      rw [hpe, ih]
      simp [hcond]

theorem ids_blockNodes (f : String × ParsedFile) :
    ids (blockNodes f) = blockIds f := rfl

theorem wf_extend {db : GraphDB} (ns' : List Node) (es' : List Edge)
    (md' : List (String × String)) (hwf : db.WF)
    (h : ∀ e ∈ es', e.from_id ∈ ids (db.nodes ++ ns')
      ∧ e.to_id ∈ ids (db.nodes ++ ns')) :
    GraphDB.WF ⟨db.nodes ++ ns', db.edges ++ es', md'⟩ := by
  intro e he
  rcases List.mem_append.1 he with h1 | h1
  · refine ⟨hasNodeId_iff.2 ?_, hasNodeId_iff.2 ?_⟩
    · rw [ids_append]
      exact List.mem_append_left _ (hasNodeId_iff.1 (hwf e h1).1)
    · rw [ids_append]
      exact List.mem_append_left _ (hasNodeId_iff.1 (hwf e h1).2)
  · exact ⟨hasNodeId_iff.2 (h e h1).1, hasNodeId_iff.2 (h e h1).2⟩

theorem persistFile_clean (st : IngestState) (f : String × ParsedFile)
    (hwf : st.db.WF)
    (hfid : fileIdOf f.1 ∉ ids st.db.nodes)
    (hents : ∀ n ∈ f.2.nodes, n.id ∉ ids st.db.nodes ∧ n.id ≠ fileIdOf f.1)
    (hnodup : (ids f.2.nodes).Nodup)
    (hintra : ∀ e ∈ f.2.edges,
      e.from_id ∈ ids f.2.nodes ∧ e.to_id ∈ ids f.2.nodes) :
    persistFile st f =
      { db := { st.db with
          nodes := st.db.nodes ++ blockNodes f
          edges := st.db.edges ++ blockEdges f }
        stats := { st.stats with
          files_processed := st.stats.files_processed + 1
          symbols_created := st.stats.symbols_created + f.2.nodes.length
          edges_created := st.stats.edges_created +
            (f.2.nodes.length + f.2.edges.length) }
        had_errors := st.had_errors } := by
  unfold persistFile
  rw [show (Node.new NodeType.File f.1 f.1).id = fileIdOf f.1 from rfl,
    delete_noop hwf hfid]
  exact persistFileRest_ok st f hfid hents hnodup hintra

theorem persistFiles_clean (pfs : List (String × ParsedFile)) (st : IngestState)
    (hwf : st.db.WF)
    (hnodup : (pfs.flatMap blockIds).Nodup)
    (hfresh : ∀ i ∈ pfs.flatMap blockIds, i ∉ ids st.db.nodes)
    (hintra : ∀ f ∈ pfs, ∀ e ∈ f.2.edges,
      e.from_id ∈ ids f.2.nodes ∧ e.to_id ∈ ids f.2.nodes) :
    persistFiles st pfs =
      { db := { st.db with
          nodes := st.db.nodes ++ pfs.flatMap blockNodes
          edges := st.db.edges ++ pfs.flatMap blockEdges }
        stats := { st.stats with
          files_processed := st.stats.files_processed + pfs.length
          symbols_created := st.stats.symbols_created + sumSymbols pfs
          edges_created := st.stats.edges_created + sumBlockEdges pfs }
        had_errors := st.had_errors } := by
  induction pfs generalizing st with
  | nil =>
    obtain ⟨⟨ns, es, md⟩, ⟨a, b, c⟩, he⟩ := st
    simp [persistFiles, sumSymbols, sumBlockEdges]
  | cons f rest ih =>
    rw [List.flatMap_cons] at hnodup hfresh
    rw [List.nodup_append] at hnodup
    have hBfresh : ∀ i ∈ blockIds f, i ∉ ids st.db.nodes := fun i hi =>
      hfresh i (List.mem_append_left _ hi)
    have hfid : fileIdOf f.1 ∉ ids st.db.nodes :=
      hBfresh _ (by simp [blockIds])
    have hBnodup : (blockIds f).Nodup := hnodup.1
    have hfid_ne : fileIdOf f.1 ∉ ids f.2.nodes := by
      have := hBnodup
      rw [blockIds, List.nodup_cons] at this
      exact this.1
    have hents : ∀ n ∈ f.2.nodes, n.id ∉ ids st.db.nodes ∧ n.id ≠ fileIdOf f.1 := by
      intro n hn
      refine ⟨hBfresh _ (by
        simp only [blockIds, List.mem_cons]
        exact Or.inr (mem_ids.2 ⟨n, hn, rfl⟩)), ?_⟩
      intro heq
      exact hfid_ne (heq ▸ mem_ids.2 ⟨n, hn, rfl⟩)
    have hEnodup : (ids f.2.nodes).Nodup := by
      have := hBnodup
      rw [blockIds, List.nodup_cons] at this
      exact this.2
    rw [persistFiles, persistFile_clean st f hwf hfid hents hEnodup
      (hintra f (by simp))]
    rw [ih]
    · simp [List.flatMap_cons, List.append_assoc, sumSymbols, sumBlockEdges,
        Nat.add_assoc, Nat.add_comm 1, Nat.add_left_comm]
    · refine wf_extend (blockNodes f) (blockEdges f) _ hwf ?_
      intro e he
      rw [ids_append, ids_blockNodes]
      rcases List.mem_append.1 he with h1 | h1
      · rcases List.mem_map.1 h1 with ⟨n, hn, rfl⟩
        constructor
        · exact List.mem_append_right _ (by simp [blockIds])
        · refine List.mem_append_right _ ?_
          simp only [blockIds, List.mem_cons]
          exact Or.inr (mem_ids.2 ⟨n, hn, rfl⟩)
      · have h' := hintra f (by simp) e h1
        constructor
        · refine List.mem_append_right _ ?_
          simp only [blockIds, List.mem_cons]
          exact Or.inr h'.1
        · refine List.mem_append_right _ ?_
          simp only [blockIds, List.mem_cons]
          exact Or.inr h'.2
    · exact hnodup.2.1
    · intro i hi
      rw [ids_append, ids_blockNodes]
      intro hin
      rcases List.mem_append.1 hin with h1 | h1
      · exact hfresh i (List.mem_append_right _ hi) h1
      · exact hnodup.2.2.symm hi h1
    · intro g hg
      exact hintra g (by simp [hg])

theorem byteHex_data (b : Nat) :
    (byteHex b).data = [Nat.digitChar (b % 256 / 16), Nat.digitChar (b % 16)] := by
  simp [byteHex, Char.toString, String.data_append]

theorem hashHex_ne_head {a b : Nat} (h : byteHex a ≠ byteHex b)
    (l1 l2 : List Nat) : hashHex (a :: l1) ≠ hashHex (b :: l2) := by
  intro heq
  apply h
  have e1 : (byteHex a).data ++ (hashHex l1).data
      = (byteHex b).data ++ (hashHex l2).data := by
    have := congrArg String.data heq
    simpa [hashHex, String.data_append] using this
  have hlen : (byteHex a).data.length = (byteHex b).data.length := by
    rw [byteHex_data, byteHex_data]
    rfl
  have h2 := (List.append_inj e1 hlen).1
  calc byteHex a = String.mk (byteHex a).data := rfl
    _ = String.mk (byteHex b).data := by rw [h2]
    _ = byteHex b := rfl

theorem fileId_ne_repoId (p root : String) : fileIdOf p ≠ (repoNodeOf root).id := by
  have hF : strBytes "File" = 70 :: [105, 108, 101] := by decide
  have hR : strBytes "Repository"
      = 82 :: [101, 112, 111, 115, 105, 116, 111, 114, 121] := by decide
  show hashHex (idBytes NodeType.File p p none none)
      ≠ hashHex (idBytes NodeType.Repository root root none none)
  unfold idBytes
  rw [show NodeType.File.as_str = "File" from rfl,
    show NodeType.Repository.as_str = "Repository" from rfl, hF, hR]
  simp only [List.cons_append, List.append_assoc]
  exact hashHex_ne_head (by decide) _ _

theorem fileId_ne_langId (p root : String) : fileIdOf p ≠ (langNodeOf root).id := by
  have hF : strBytes "File" = 70 :: [105, 108, 101] := by decide
  have hL : strBytes "Language" = 76 :: [97, 110, 103, 117, 97, 103, 101] := by
    decide
  show hashHex (idBytes NodeType.File p p none none)
      ≠ hashHex (idBytes NodeType.Language "typescript" root none none)
  unfold idBytes
  rw [show NodeType.File.as_str = "File" from rfl,
    show NodeType.Language.as_str = "Language" from rfl, hF, hL]
  simp only [List.cons_append, List.append_assoc]
  exact hashHex_ne_head (by decide) _ _

/-- The cascade as one membership-based filter over each table: a node
survives iff its id is neither the file id nor a Contains-target; an edge
survives iff neither endpoint is. -/
theorem delete_eq (db : GraphDB) (fid : String) :
    db.delete_file_and_symbols fid =
      ⟨db.nodes.filter (fun n => decide (n.id ∉ fid :: containsTargets db fid)),
        db.edges.filter (fun e =>
          decide (e.from_id ∉ fid :: containsTargets db fid)
            && decide (e.to_id ∉ fid :: containsTargets db fid)),
        db.metadata⟩ := by
  obtain ⟨ns, es, md⟩ := db
  unfold GraphDB.delete_file_and_symbols
  simp only [GraphDB.mk.injEq, List.filter_filter]
  refine ⟨List.filter_congr (fun n hn => ?_), List.filter_congr (fun e he => ?_),
    trivial⟩
  · by_cases h1 : n.id = fid <;>
      by_cases h2 : n.id ∈ containsTargets ⟨ns, es, md⟩ fid <;>
        simp_all
  · by_cases h1 : e.from_id = fid <;>
      by_cases h2 : e.from_id ∈ containsTargets ⟨ns, es, md⟩ fid <;>
        by_cases h3 : e.to_id = fid <;>
          by_cases h4 : e.to_id ∈ containsTargets ⟨ns, es, md⟩ fid <;>
            simp_all

theorem delete_only_node {db : GraphDB} {fid : String}
    (htgt : containsTargets db fid = [])
    (hedges : ∀ e ∈ db.edges, e.from_id ≠ fid ∧ e.to_id ≠ fid) :
    db.delete_file_and_symbols fid =
      ⟨db.nodes.filter (fun n => decide (n.id ≠ fid)), db.edges, db.metadata⟩ := by
  rw [delete_eq, htgt]
  obtain ⟨ns, es, md⟩ := db
  simp only [GraphDB.mk.injEq]
  refine ⟨List.filter_congr (fun n hn => by simp), ?_, trivial⟩
  refine List.filter_eq_self.mpr (fun e he => ?_)
  simp [(hedges e he).1, (hedges e he).2]

theorem impInsert_mem {ns : List Node} {ps : List (String × String)} {e : Edge}
    (he : e ∈ impInsert ns ps) :
    e.edge_type = EdgeType.Imports ∧
      ∃ p ∈ ps, e.from_id = fileIdOf p.1 ∧ e.to_id = fileIdOf p.2 := by
  unfold impInsert at he
  rcases List.mem_filterMap.1 he with ⟨p, hp, hsome⟩
  split at hsome
  · cases hsome
    exact ⟨rfl, p, hp, rfl, rfl⟩
  · cases hsome

theorem allImportEdges_eq (pfs : List (String × ParsedFile)) :
    allImportEdges pfs = pfs.flatMap (fun f => f.2.import_edges) := by
  have haux : ∀ (l : List (String × ParsedFile)) (acc : List (String × String)),
      l.foldl (fun acc f => acc ++ f.2.import_edges) acc
        = acc ++ l.flatMap (fun f => f.2.import_edges) := by
    intro l
    induction l with
    | nil => simp
    | cons f rest ih =>
      intro acc
      simp [List.foldl_cons, ih, List.flatMap_cons, List.append_assoc]
  simpa using haux pfs []

theorem blockNodes_mem {f : String × ParsedFile} {n : Node}
    (hn : n ∈ blockNodes f) : n.id ∈ blockIds f := by
  rw [← ids_blockNodes]
  exact mem_ids.2 ⟨n, hn, rfl⟩

theorem blockEdges_mem {f : String × ParsedFile} {e : Edge}
    (hintra : ∀ e ∈ f.2.edges,
      e.from_id ∈ ids f.2.nodes ∧ e.to_id ∈ ids f.2.nodes)
    (he : e ∈ blockEdges f) :
    e.from_id ∈ blockIds f ∧ e.to_id ∈ blockIds f := by
  unfold blockEdges at he
  rcases List.mem_append.1 he with h1 | h1
  · rcases List.mem_map.1 h1 with ⟨n, hn, rfl⟩
    exact ⟨by simp [blockIds],
      by simp only [blockIds, List.mem_cons]; exact Or.inr (mem_ids.2 ⟨n, hn, rfl⟩)⟩
  · have h' := hintra e h1
    exact ⟨by simp only [blockIds, List.mem_cons]; exact Or.inr h'.1,
      by simp only [blockIds, List.mem_cons]; exact Or.inr h'.2⟩

theorem flatMap_blockNodes_mem {l : List (String × ParsedFile)} {n : Node}
    (hn : n ∈ l.flatMap blockNodes) :
    ∃ g ∈ l, n.id ∈ blockIds g := by
  rcases List.mem_flatMap.1 hn with ⟨g, hg, hmem⟩
  exact ⟨g, hg, blockNodes_mem hmem⟩

theorem flatMap_blockEdges_mem {l : List (String × ParsedFile)} {e : Edge}
    (hintra : ∀ f ∈ l, ∀ e ∈ f.2.edges,
      e.from_id ∈ ids f.2.nodes ∧ e.to_id ∈ ids f.2.nodes)
    (he : e ∈ l.flatMap blockEdges) :
    ∃ g ∈ l, e.from_id ∈ blockIds g ∧ e.to_id ∈ blockIds g := by
  rcases List.mem_flatMap.1 he with ⟨g, hg, hmem⟩
  exact ⟨g, hg, blockEdges_mem (hintra g hg) hmem⟩

theorem decide_not_mem_append {x : String} {a b : List String} :
    decide (x ∉ a ++ b) = (decide (x ∉ a) && decide (x ∉ b)) := by
  by_cases h1 : x ∈ a <;> by_cases h2 : x ∈ b <;> simp [h1, h2]

/-- Facts extracted from CleanRun used throughout the replay argument. -/
theorem clean_facts {root : String} {pfs : List (String × ParsedFile)}
    {db0 : GraphDB} (hc : CleanRun root pfs db0) :
    (pfs.flatMap blockIds).Nodup
      ∧ (repoNodeOf root).id ∉ pfs.flatMap blockIds
      ∧ (langNodeOf root).id ∉ pfs.flatMap blockIds
      ∧ (repoNodeOf root).id ≠ (langNodeOf root).id
      ∧ (∀ i ∈ pfs.flatMap blockIds, i ∉ ids db0.nodes)
      ∧ (repoNodeOf root).id ∉ ids db0.nodes
      ∧ (langNodeOf root).id ∉ ids db0.nodes := by
  have h := hc.nodup
  unfold createdIds at h
  rw [List.nodup_cons, List.nodup_cons] at h
  refine ⟨h.2.2, ?_, h.2.1, ?_, ?_, ?_, ?_⟩
  · intro hin
    exact h.1 (List.mem_cons_of_mem _ hin)
  · intro heq
    exact h.1 (heq ▸ List.mem_cons_self _ _)
  · intro i hi hin
    rcases mem_ids.1 hin with ⟨n, hn, rfl⟩
    exact hc.fresh n hn (List.mem_cons_of_mem _ (List.mem_cons_of_mem _ hi))
  · intro hin
    rcases mem_ids.1 hin with ⟨n, hn, hid⟩
    exact hc.fresh n hn (by rw [hid]; exact List.mem_cons_self _ _)
  · intro hin
    rcases mem_ids.1 hin with ⟨n, hn, hid⟩
    exact hc.fresh n hn
      (by rw [hid]; exact List.mem_cons_of_mem _ (List.mem_cons_self _ _))

set_option maxHeartbeats 2000000 in
theorem replay_step (root : String) (pfs : List (String × ParsedFile))
    (db0 : GraphDB) (hc : CleanRun root pfs db0)
    (done rest' : List (String × ParsedFile)) (f : String × ParsedFile)
    (heq : pfs = done ++ f :: rest')
    (md : List (String × String)) (stats : IngestStats) :
    persistFile ⟨⟨nodesShape root db0 (f :: rest') done,
        edgesShape root pfs db0 (f :: rest') done, md⟩, stats, false⟩ f
      = ⟨⟨nodesShape root db0 rest' (done ++ [f]),
          edgesShape root pfs db0 rest' (done ++ [f]), md⟩,
        ⟨stats.files_processed + 1,
          stats.symbols_created + f.2.nodes.length,
          stats.edges_created + (f.2.nodes.length + f.2.edges.length)⟩,
        false⟩ := by
  obtain ⟨hnodupF, hRnot, hLnot, hRL, hfreshAll, hRfresh, hLfresh⟩ := clean_facts hc
  have hflat : pfs.flatMap blockIds
      = done.flatMap blockIds ++ (blockIds f ++ rest'.flatMap blockIds) := by
    rw [heq]
    simp [List.flatMap_append, List.flatMap_cons]
  rw [hflat] at hnodupF hRnot hLnot hfreshAll
  rw [List.nodup_append] at hnodupF
  have hnodupFR := hnodupF.2.1
  rw [List.nodup_append] at hnodupFR
  have hBnodup : (blockIds f).Nodup := hnodupFR.1
  have hdisjDone : ∀ i ∈ blockIds f, i ∉ done.flatMap blockIds := by
    intro i hi hin
    exact hnodupF.2.2 hin (List.mem_append_left _ hi)
  have hdisjRest : ∀ i ∈ blockIds f, i ∉ rest'.flatMap blockIds := by
    intro i hi hin
    exact hnodupFR.2.2 hi hin
  have hBfresh : ∀ i ∈ blockIds f, i ∉ ids db0.nodes := by
    intro i hi
    exact hfreshAll i (List.mem_append_right _ (List.mem_append_left _ hi))
  have hBnotR : ∀ i ∈ blockIds f, i ≠ (repoNodeOf root).id := by
    intro i hi heq'
    exact hRnot (heq' ▸ List.mem_append_right _ (List.mem_append_left _ hi))
  have hBnotL : ∀ i ∈ blockIds f, i ≠ (langNodeOf root).id := by
    intro i hi heq'
    exact hLnot (heq' ▸ List.mem_append_right _ (List.mem_append_left _ hi))
  have hfmem : f ∈ pfs := by
    rw [heq]
    exact List.mem_append_right _ (List.mem_cons_self _ _)
  have hfid_mem : fileIdOf f.1 ∈ blockIds f := by simp [blockIds]
  have hfid_ne_ents : fileIdOf f.1 ∉ ids f.2.nodes := by
    have := hBnodup
    rw [blockIds, List.nodup_cons] at this
    exact this.1
  have hEnodup : (ids f.2.nodes).Nodup := by
    have := hBnodup
    rw [blockIds, List.nodup_cons] at this
    exact this.2
  have hintraF := hc.intra f hfmem
  have hintraDone : ∀ g ∈ done, ∀ e ∈ g.2.edges,
      e.from_id ∈ ids g.2.nodes ∧ e.to_id ∈ ids g.2.nodes := by
    intro g hg
    exact hc.intra g (by rw [heq]; exact List.mem_append_left _ hg)
  have hintraRest : ∀ g ∈ rest', ∀ e ∈ g.2.edges,
      e.from_id ∈ ids g.2.nodes ∧ e.to_id ∈ ids g.2.nodes := by
    intro g hg
    exact hc.intra g (by
      rw [heq]
      exact List.mem_append_right _ (List.mem_cons_of_mem _ hg))
  -- the Contains-targets of the file node are exactly its entities
  have htgt : containsTargets
      ⟨nodesShape root db0 (f :: rest') done,
        edgesShape root pfs db0 (f :: rest') done, md⟩ (fileIdOf f.1)
      = ids f.2.nodes := by
    unfold containsTargets edgesShape
    rw [List.flatMap_cons]
    have hP0 : ∀ e ∈ db0.edges,
        ¬(e.from_id == fileIdOf f.1 && e.edge_type == EdgeType.Contains) = true := by
      intro e he hP
      simp only [Bool.and_eq_true, beq_iff_eq] at hP
      exact hBfresh _ hfid_mem (hP.1 ▸ hasNodeId_iff.1 (hc.wf e he).1)
    have hPBi : ∀ e ∈ f.2.edges,
        ¬(e.from_id == fileIdOf f.1 && e.edge_type == EdgeType.Contains) = true := by
      intro e he hP
      simp only [Bool.and_eq_true, beq_iff_eq] at hP
      exact hfid_ne_ents (hP.1 ▸ (hintraF e he).1)
    have hPRest : ∀ e ∈ rest'.flatMap blockEdges,
        ¬(e.from_id == fileIdOf f.1 && e.edge_type == EdgeType.Contains) = true := by
      intro e he hP
      simp only [Bool.and_eq_true, beq_iff_eq] at hP
      rcases flatMap_blockEdges_mem hintraRest he with ⟨g, hg, hfrom, _⟩
      rw [hP.1] at hfrom
      exact hdisjRest _ hfid_mem (List.mem_flatMap.2 ⟨g, hg, hfrom⟩)
    have hPDone : ∀ e ∈ done.flatMap blockEdges,
        ¬(e.from_id == fileIdOf f.1 && e.edge_type == EdgeType.Contains) = true := by
      intro e he hP
      simp only [Bool.and_eq_true, beq_iff_eq] at hP
      rcases flatMap_blockEdges_mem hintraDone he with ⟨g, hg, hfrom, _⟩
      rw [hP.1] at hfrom
      exact hdisjDone _ hfid_mem (List.mem_flatMap.2 ⟨g, hg, hfrom⟩)
    have hPImp : ∀ e ∈ impRem root pfs db0 done,
        ¬(e.from_id == fileIdOf f.1 && e.edge_type == EdgeType.Contains) = true := by
      intro e he hP
      simp only [Bool.and_eq_true, beq_iff_eq] at hP
      have := (impInsert_mem (List.mem_filter.1 he).1).1
      rw [this] at hP
      exact absurd hP.2 (by decide)
    rw [show blockEdges f
        = f.2.nodes.map (fun n => (⟨fileIdOf f.1, n.id, EdgeType.Contains⟩ : Edge))
          ++ f.2.edges from rfl]
    simp only [List.filter_append, List.filter_eq_nil.mpr hP0,
      List.filter_eq_nil.mpr hPBi, List.filter_eq_nil.mpr hPRest,
      List.filter_eq_nil.mpr hPDone, List.filter_eq_nil.mpr hPImp,
      List.nil_append, List.append_nil]
    rw [List.filter_eq_self.mpr (by
      intro e he
      rcases List.mem_map.1 he with ⟨n, hn, rfl⟩
      simp)]
    simp [ids, List.map_map, Function.comp]
  -- per-segment id-avoidance facts for the cascade's filters
  have hseg0 : ∀ n ∈ db0.nodes, n.id ∉ blockIds f := by
    intro n hn hin
    exact hBfresh _ hin (mem_ids.2 ⟨n, hn, rfl⟩)
  have hsegR : ∀ n ∈ rest'.flatMap blockNodes, n.id ∉ blockIds f := by
    intro n hn hin
    rcases flatMap_blockNodes_mem hn with ⟨g, hg, hmem⟩
    exact hdisjRest _ hin (List.mem_flatMap.2 ⟨g, hg, hmem⟩)
  have hsegD : ∀ n ∈ done.flatMap blockNodes, n.id ∉ blockIds f := by
    intro n hn hin
    rcases flatMap_blockNodes_mem hn with ⟨g, hg, hmem⟩
    exact hdisjDone _ hin (List.mem_flatMap.2 ⟨g, hg, hmem⟩)
  have hsegE0 : ∀ e ∈ db0.edges,
      e.from_id ∉ blockIds f ∧ e.to_id ∉ blockIds f := by
    intro e he
    constructor
    · intro hin
      exact hBfresh _ hin (hasNodeId_iff.1 (hc.wf e he).1)
    · intro hin
      exact hBfresh _ hin (hasNodeId_iff.1 (hc.wf e he).2)
  have hsegER : ∀ e ∈ rest'.flatMap blockEdges,
      e.from_id ∉ blockIds f ∧ e.to_id ∉ blockIds f := by
    intro e he
    rcases flatMap_blockEdges_mem hintraRest he with ⟨g, hg, h1, h2⟩
    exact ⟨fun hin => hdisjRest _ hin (List.mem_flatMap.2 ⟨g, hg, h1⟩),
      fun hin => hdisjRest _ hin (List.mem_flatMap.2 ⟨g, hg, h2⟩)⟩
  have hsegED : ∀ e ∈ done.flatMap blockEdges,
      e.from_id ∉ blockIds f ∧ e.to_id ∉ blockIds f := by
    intro e he
    rcases flatMap_blockEdges_mem hintraDone he with ⟨g, hg, h1, h2⟩
    exact ⟨fun hin => hdisjDone _ hin (List.mem_flatMap.2 ⟨g, hg, h1⟩),
      fun hin => hdisjDone _ hin (List.mem_flatMap.2 ⟨g, hg, h2⟩)⟩
  have hdoneFlat : (done ++ [f]).flatMap blockIds
      = done.flatMap blockIds ++ blockIds f := by
    simp [List.flatMap_append, List.flatMap_cons]
  -- the cascade removes exactly this file's block, plus the surviving
  -- import edges incident to it
  have hdel : (⟨nodesShape root db0 (f :: rest') done,
        edgesShape root pfs db0 (f :: rest') done, md⟩ : GraphDB).delete_file_and_symbols
        (fileIdOf f.1)
      = ⟨nodesShape root db0 rest' done,
          db0.edges ++ rest'.flatMap blockEdges ++
            impRem root pfs db0 (done ++ [f]) ++ done.flatMap blockEdges,
          md⟩ := by
    rw [delete_eq, htgt]
    rw [show fileIdOf f.1 :: ids f.2.nodes = blockIds f from rfl]
    simp only [GraphDB.mk.injEq]
    refine ⟨?_, ?_, trivial⟩
    · show (nodesShape root db0 (f :: rest') done).filter
          (fun n => decide (n.id ∉ blockIds f)) = nodesShape root db0 rest' done
      unfold nodesShape
      rw [List.flatMap_cons,
        show (repoNodeOf root :: langNodeOf root :: done.flatMap blockNodes)
          = [repoNodeOf root, langNodeOf root] ++ done.flatMap blockNodes from rfl]
      simp only [List.filter_append]
      rw [List.filter_eq_self.mpr (fun n hn => by simp [hseg0 n hn]),
        List.filter_eq_nil.mpr (fun n hn => by simp [blockNodes_mem hn]),
        List.filter_eq_self.mpr (fun n hn => by simp [hsegR n hn]),
        List.filter_eq_self.mpr (fun n hn => by
          rcases List.mem_cons.1 hn with h | h
          · subst h
            simp only [decide_eq_true_eq]
            intro hin
            exact hBnotR _ hin rfl
          · rcases List.mem_cons.1 h with h' | h'
            · subst h'
              simp only [decide_eq_true_eq]
              intro hin
              exact hBnotL _ hin rfl
            · exact absurd h' (List.not_mem_nil _)),
        List.filter_eq_self.mpr (fun n hn => by simp [hsegD n hn])]
      simp only [List.nil_append, List.append_assoc, List.cons_append,
        List.singleton_append]
    · show (edgesShape root pfs db0 (f :: rest') done).filter
          (fun e => decide (e.from_id ∉ blockIds f)
            && decide (e.to_id ∉ blockIds f))
        = db0.edges ++ rest'.flatMap blockEdges ++
            impRem root pfs db0 (done ++ [f]) ++ done.flatMap blockEdges
      unfold edgesShape
      rw [List.flatMap_cons]
      simp only [List.filter_append]
      rw [List.filter_eq_self.mpr (fun e he => by
          simp [(hsegE0 e he).1, (hsegE0 e he).2]),
        List.filter_eq_nil.mpr (fun e he => by
          have h' := blockEdges_mem hintraF he
          simp [h'.1]),
        List.filter_eq_self.mpr (fun e he => by
          simp [(hsegER e he).1, (hsegER e he).2])]
      rw [show (impRem root pfs db0 done).filter
          (fun e => decide (e.from_id ∉ blockIds f)
            && decide (e.to_id ∉ blockIds f))
          = impRem root pfs db0 (done ++ [f]) from by
        unfold impRem
        rw [List.filter_filter, hdoneFlat]
        refine List.filter_congr (fun e he => ?_)
        rw [decide_not_mem_append, decide_not_mem_append]
        simp only [Bool.and_assoc, Bool.and_comm, Bool.and_left_comm]]
      rw [List.filter_eq_self.mpr (fun e he => by
          simp [(hsegED e he).1, (hsegED e he).2])]
      simp only [List.nil_append, List.append_assoc]
  -- freshness of the block in the post-cascade state
  have hnotin_shape : ∀ i ∈ blockIds f,
      i ∉ ids (nodesShape root db0 rest' done) := by
    intro i hi hin
    unfold nodesShape at hin
    rw [ids_append, ids_append, ids_cons, ids_cons] at hin
    rcases List.mem_append.1 hin with h | h
    · rcases List.mem_append.1 h with h' | h'
      · exact hBfresh _ hi h'
      · rcases mem_ids.1 h' with ⟨n, hn, hid⟩
        rcases flatMap_blockNodes_mem hn with ⟨g, hg, hmem⟩
        exact hdisjRest _ hi (List.mem_flatMap.2 ⟨g, hg, hid ▸ hmem⟩)
    rcases List.mem_cons.1 h with h | h
    · exact hBnotR _ hi h
    rcases List.mem_cons.1 h with h | h
    · exact hBnotL _ hi h
    · rcases mem_ids.1 h with ⟨n, hn, hid⟩
      rcases flatMap_blockNodes_mem hn with ⟨g, hg, hmem⟩
      exact hdisjDone _ hi (List.mem_flatMap.2 ⟨g, hg, hid ▸ hmem⟩)
  -- reassemble via the clean insertion lemma
  unfold persistFile
  rw [show (Node.new NodeType.File f.1 f.1).id = fileIdOf f.1 from rfl]
  rw [show (⟨⟨nodesShape root db0 (f :: rest') done,
      edgesShape root pfs db0 (f :: rest') done, md⟩, stats, false⟩ :
        IngestState).db
    = ⟨nodesShape root db0 (f :: rest') done,
        edgesShape root pfs db0 (f :: rest') done, md⟩ from rfl, hdel]
  rw [persistFileRest_ok _ f (hnotin_shape _ hfid_mem)
    (fun n hn => ⟨hnotin_shape _ (by
        simp only [blockIds, List.mem_cons]
        exact Or.inr (mem_ids.2 ⟨n, hn, rfl⟩)),
      fun heq' => hfid_ne_ents (heq' ▸ mem_ids.2 ⟨n, hn, rfl⟩)⟩)
    hEnodup hintraF]
  have hnodes : nodesShape root db0 rest' done ++ blockNodes f
      = nodesShape root db0 rest' (done ++ [f]) := by
    unfold nodesShape
    simp only [List.flatMap_append, List.flatMap_cons, List.flatMap_nil,
      List.append_nil, List.append_assoc, List.cons_append]
  have hedges : db0.edges ++ rest'.flatMap blockEdges ++
        impRem root pfs db0 (done ++ [f]) ++ done.flatMap blockEdges
        ++ blockEdges f
      = edgesShape root pfs db0 rest' (done ++ [f]) := by
    unfold edgesShape
    simp only [List.flatMap_append, List.flatMap_cons, List.flatMap_nil,
      List.append_nil, List.append_assoc]
  simp only [hnodes, hedges]

theorem persistFiles_replay (root : String) (pfs : List (String × ParsedFile))
    (db0 : GraphDB) (hc : CleanRun root pfs db0) :
    ∀ (rest done : List (String × ParsedFile)), pfs = done ++ rest →
    ∀ (md : List (String × String)) (stats : IngestStats),
    persistFiles ⟨⟨nodesShape root db0 rest done,
        edgesShape root pfs db0 rest done, md⟩, stats, false⟩ rest
      = ⟨⟨nodesShape root db0 [] pfs, edgesShape root pfs db0 [] pfs, md⟩,
        ⟨stats.files_processed + rest.length,
          stats.symbols_created + sumSymbols rest,
          stats.edges_created + sumBlockEdges rest⟩, false⟩ := by
  intro rest
  induction rest with
  | nil =>
    intro done heq md stats
    rw [List.append_nil] at heq
    subst heq
    simp [persistFiles, sumSymbols, sumBlockEdges]
  | cons f rest' ih =>
    intro done heq md stats
    rw [persistFiles, replay_step root pfs db0 hc done rest' f heq md stats,
      ih (done ++ [f]) (by rw [heq, List.append_assoc]; rfl) md _]
    simp [sumSymbols, sumBlockEdges, Nat.add_assoc, Nat.add_comm 1,
      Nat.add_left_comm]

theorem wf_more_nodes {db : GraphDB} (ns' : List Node)
    (md' : List (String × String)) (hwf : db.WF) :
    GraphDB.WF ⟨db.nodes ++ ns', db.edges, md'⟩ := by
  intro e he
  refine ⟨hasNodeId_iff.2 ?_, hasNodeId_iff.2 ?_⟩
  · rw [ids_append]
    exact List.mem_append_left _ (hasNodeId_iff.1 (hwf e he).1)
  · rw [ids_append]
    exact List.mem_append_left _ (hasNodeId_iff.1 (hwf e he).2)

set_option maxHeartbeats 1000000 in
theorem runIngest_clean (root : String) (pfs : List (String × ParsedFile))
    (db0 : GraphDB) (hc : CleanRun root pfs db0)
    (isRepo : Bool) (commit : Option String)
    (hcommit : ∀ c, commit = some c → 8 ≤ c.length) :
    runIngest root pfs isRepo commit db0
      = .ok ⟨⟨finalNodes root pfs db0, finalEdges root pfs db0,
          mdAfter isRepo commit db0.metadata⟩,
        finalStats root pfs db0, false⟩ := by
  obtain ⟨hnodupF, hRnot, hLnot, hRL, hfreshAll, hRfresh, hLfresh⟩ := clean_facts hc
  have hdelR : db0.delete_file_and_symbols (repoNodeOf root).id = db0 :=
    delete_noop hc.wf hRfresh
  have hinsR : db0.insert_node (repoNodeOf root)
      = .ok { db0 with nodes := db0.nodes ++ [repoNodeOf root] } :=
    insert_node_fresh hRfresh
  have hLfresh1 : (langNodeOf root).id
      ∉ ids (db0.nodes ++ [repoNodeOf root]) := by
    rw [ids_append]
    intro hin
    rcases List.mem_append.1 hin with h | h
    · exact hLfresh h
    · simp only [ids, List.map_cons, List.map_nil, List.mem_singleton] at h
      exact hRL h.symm
  have hwf1 : GraphDB.WF ⟨db0.nodes ++ [repoNodeOf root], db0.edges,
      db0.metadata⟩ := wf_more_nodes _ _ hc.wf
  have hdelL : (⟨db0.nodes ++ [repoNodeOf root], db0.edges,
        db0.metadata⟩ : GraphDB).delete_file_and_symbols (langNodeOf root).id
      = ⟨db0.nodes ++ [repoNodeOf root], db0.edges, db0.metadata⟩ :=
    delete_noop hwf1 hLfresh1
  have hinsL : (⟨db0.nodes ++ [repoNodeOf root], db0.edges,
        db0.metadata⟩ : GraphDB).insert_node (langNodeOf root)
      = .ok ⟨(db0.nodes ++ [repoNodeOf root]) ++ [langNodeOf root], db0.edges,
        db0.metadata⟩ := insert_node_fresh hLfresh1
  have hwf2 : GraphDB.WF ⟨(db0.nodes ++ [repoNodeOf root]) ++ [langNodeOf root],
      db0.edges, db0.metadata⟩ := wf_more_nodes _ _ hwf1
  have hRLids : ∀ i ∈ pfs.flatMap blockIds,
      i ∉ ids ((db0.nodes ++ [repoNodeOf root]) ++ [langNodeOf root]) := by
    intro i hi hin
    rw [ids_append, ids_append] at hin
    rcases List.mem_append.1 hin with h | h
    · rcases List.mem_append.1 h with h' | h'
      · exact hfreshAll i hi h'
      · simp only [ids, List.map_cons, List.map_nil, List.mem_singleton] at h'
        exact hRnot (h' ▸ hi)
    · simp only [ids, List.map_cons, List.map_nil, List.mem_singleton] at h
      exact hLnot (h ▸ hi)
  have hfiles := persistFiles_clean pfs
    ⟨⟨(db0.nodes ++ [repoNodeOf root]) ++ [langNodeOf root], db0.edges,
      db0.metadata⟩, ⟨0, 0, 0⟩, false⟩ hwf2 hnodupF hRLids hc.intra
  have hfinN : ((db0.nodes ++ [repoNodeOf root]) ++ [langNodeOf root])
      ++ pfs.flatMap blockNodes = finalNodes root pfs db0 := by
    unfold finalNodes
    simp [List.append_assoc]
  rw [hfinN] at hfiles
  have himp := persistImportEdges_ok (allImportEdges pfs)
    (persistFiles ⟨⟨(db0.nodes ++ [repoNodeOf root]) ++ [langNodeOf root],
      db0.edges, db0.metadata⟩, ⟨0, 0, 0⟩, false⟩ pfs)
  rw [hfiles] at himp
  simp only [runIngest]
  rw [show Node.new NodeType.Repository root root = repoNodeOf root from rfl,
    show Node.new NodeType.Language "typescript" root = langNodeOf root from rfl]
  simp only [hdelR, hinsR, hdelL, hinsL, hfiles, himp, resolve_cross_file_calls,
    persistCallEdges]
  cases isRepo with
  | false =>
    simp only [Bool.and_false, Bool.not_false, if_neg (by simp : ¬False)]
    simp [mdAfter, finalEdges, finalStats, Nat.zero_add]
  | true =>
    cases commit with
    | none =>
      simp [mdAfter, finalEdges, finalStats, Nat.zero_add]
    | some c =>
      have hlen : 8 ≤ c.length := hcommit c rfl
      simp [mdAfter, finalEdges, finalStats, Nat.zero_add, hlen,
        GraphDB.set_metadata]

set_option maxHeartbeats 2000000 in
theorem runIngest_replay (root : String) (pfs : List (String × ParsedFile))
    (db0 : GraphDB) (hc : CleanRun root pfs db0)
    (isRepo : Bool) (commit : Option String)
    (hcommit : ∀ c, commit = some c → 8 ≤ c.length)
    (md1 : List (String × String)) :
    runIngest root pfs isRepo commit
        ⟨finalNodes root pfs db0, finalEdges root pfs db0, md1⟩
      = .ok ⟨⟨finalNodes root pfs db0, finalEdges root pfs db0,
          mdAfter isRepo commit md1⟩,
        finalStats root pfs db0, false⟩ := by
  obtain ⟨hnodupF, hRnot, hLnot, hRL, hfreshAll, hRfresh, hLfresh⟩ := clean_facts hc
  -- no edge of the ingested state touches the synthetic nodes
  have hedgesRL : ∀ e ∈ finalEdges root pfs db0,
      (e.from_id ≠ (repoNodeOf root).id ∧ e.to_id ≠ (repoNodeOf root).id)
        ∧ (e.from_id ≠ (langNodeOf root).id ∧ e.to_id ≠ (langNodeOf root).id) := by
    intro e he
    unfold finalEdges at he
    rcases List.mem_append.1 he with h | h
    · rcases List.mem_append.1 h with h' | h'
      · have hw := hc.wf e h'
        have h1 := hasNodeId_iff.1 hw.1
        have h2 := hasNodeId_iff.1 hw.2
        exact ⟨⟨fun heq => hRfresh (heq ▸ h1), fun heq => hRfresh (heq ▸ h2)⟩,
          ⟨fun heq => hLfresh (heq ▸ h1), fun heq => hLfresh (heq ▸ h2)⟩⟩
      · rcases flatMap_blockEdges_mem hc.intra h' with ⟨g, hg, h1, h2⟩
        have m1 : e.from_id ∈ pfs.flatMap blockIds := List.mem_flatMap.2 ⟨g, hg, h1⟩
        have m2 : e.to_id ∈ pfs.flatMap blockIds := List.mem_flatMap.2 ⟨g, hg, h2⟩
        exact ⟨⟨fun heq => hRnot (heq ▸ m1), fun heq => hRnot (heq ▸ m2)⟩,
          ⟨fun heq => hLnot (heq ▸ m1), fun heq => hLnot (heq ▸ m2)⟩⟩
    · rcases impInsert_mem h with ⟨_, p, _, hfrom, hto⟩
      refine ⟨⟨?_, ?_⟩, ?_, ?_⟩
      · rw [hfrom]; exact fileId_ne_repoId _ _
      · rw [hto]; exact fileId_ne_repoId _ _
      · rw [hfrom]; exact fileId_ne_langId _ _
      · rw [hto]; exact fileId_ne_langId _ _
  have htgtR : containsTargets
      ⟨finalNodes root pfs db0, finalEdges root pfs db0, md1⟩
      (repoNodeOf root).id = [] :=
    containsTargets_nil (fun e he hf _ => ((hedgesRL e he).1.1 hf).elim)
  have hdelR : (⟨finalNodes root pfs db0, finalEdges root pfs db0, md1⟩ :
        GraphDB).delete_file_and_symbols (repoNodeOf root).id
      = ⟨(finalNodes root pfs db0).filter
          (fun n => decide (n.id ≠ (repoNodeOf root).id)),
          finalEdges root pfs db0, md1⟩ :=
    delete_only_node htgtR (fun e he => (hedgesRL e he).1)
  -- the filter removes exactly the old Repository node
  have hfilR : (finalNodes root pfs db0).filter
      (fun n => decide (n.id ≠ (repoNodeOf root).id))
      = db0.nodes ++ langNodeOf root :: pfs.flatMap blockNodes := by
    unfold finalNodes
    rw [show (repoNodeOf root :: langNodeOf root :: pfs.flatMap blockNodes)
      = [repoNodeOf root] ++ langNodeOf root :: pfs.flatMap blockNodes from rfl]
    rw [List.filter_append, List.filter_append]
    rw [List.filter_eq_self.mpr (fun n hn => by
        simp only [decide_eq_true_eq]
        intro heq
        exact hRfresh (heq ▸ mem_ids.2 ⟨n, hn, rfl⟩)),
      List.filter_eq_nil.mpr (fun n hn => by
        rcases List.mem_singleton.1 hn with rfl
        simp),
      List.filter_eq_self.mpr (fun n hn => by
        simp only [decide_eq_true_eq]
        rcases List.mem_cons.1 hn with h | h
        · subst h
          exact fun heq => hRL heq.symm
        · intro heq
          rcases flatMap_blockNodes_mem h with ⟨g, hg, hmem⟩
          exact hRnot (heq ▸ List.mem_flatMap.2 ⟨g, hg, hmem⟩))]
    simp
  have hRins : (⟨db0.nodes ++ langNodeOf root :: pfs.flatMap blockNodes,
        finalEdges root pfs db0, md1⟩ : GraphDB).insert_node (repoNodeOf root)
      = .ok ⟨(db0.nodes ++ langNodeOf root :: pfs.flatMap blockNodes)
            ++ [repoNodeOf root], finalEdges root pfs db0, md1⟩ :=
    insert_node_fresh (by
      rw [ids_append, ids_cons]
      intro hin
      rcases List.mem_append.1 hin with h | h
      · exact hRfresh h
      rcases List.mem_cons.1 h with h | h
      · exact hRL h
      · rcases mem_ids.1 h with ⟨n, hn, hid⟩
        rcases flatMap_blockNodes_mem hn with ⟨g, hg, hmem⟩
        exact hRnot (hid ▸ List.mem_flatMap.2 ⟨g, hg, hmem⟩))
  have htgtL : containsTargets
      ⟨(db0.nodes ++ langNodeOf root :: pfs.flatMap blockNodes)
          ++ [repoNodeOf root], finalEdges root pfs db0, md1⟩
      (langNodeOf root).id = [] :=
    containsTargets_nil (fun e he hf _ => ((hedgesRL e he).2.1 hf).elim)
  have hdelL : (⟨(db0.nodes ++ langNodeOf root :: pfs.flatMap blockNodes)
          ++ [repoNodeOf root], finalEdges root pfs db0, md1⟩ :
        GraphDB).delete_file_and_symbols (langNodeOf root).id
      = ⟨((db0.nodes ++ langNodeOf root :: pfs.flatMap blockNodes)
          ++ [repoNodeOf root]).filter
            (fun n => decide (n.id ≠ (langNodeOf root).id)),
          finalEdges root pfs db0, md1⟩ :=
    delete_only_node htgtL (fun e he => (hedgesRL e he).2)
  have hfilL : ((db0.nodes ++ langNodeOf root :: pfs.flatMap blockNodes)
        ++ [repoNodeOf root]).filter
          (fun n => decide (n.id ≠ (langNodeOf root).id))
      = (db0.nodes ++ pfs.flatMap blockNodes) ++ [repoNodeOf root] := by
    rw [show (langNodeOf root :: pfs.flatMap blockNodes)
      = [langNodeOf root] ++ pfs.flatMap blockNodes from rfl]
    rw [List.filter_append, List.filter_append, List.filter_append]
    rw [List.filter_eq_self.mpr (fun n hn => by
        simp only [decide_eq_true_eq]
        intro heq
        exact hLfresh (heq ▸ mem_ids.2 ⟨n, hn, rfl⟩)),
      List.filter_eq_nil.mpr (fun n hn => by
        rcases List.mem_singleton.1 hn with rfl
        simp),
      List.filter_eq_self.mpr (fun n hn => by
        simp only [decide_eq_true_eq]
        intro heq
        rcases flatMap_blockNodes_mem hn with ⟨g, hg, hmem⟩
        exact hLnot (heq ▸ List.mem_flatMap.2 ⟨g, hg, hmem⟩)),
      List.filter_eq_self.mpr (fun n hn => by
        rcases List.mem_singleton.1 hn with rfl
        simp only [decide_eq_true_eq]
        exact hRL)]
    simp
  have hLins : (⟨(db0.nodes ++ pfs.flatMap blockNodes) ++ [repoNodeOf root],
        finalEdges root pfs db0, md1⟩ : GraphDB).insert_node (langNodeOf root)
      = .ok ⟨((db0.nodes ++ pfs.flatMap blockNodes) ++ [repoNodeOf root])
            ++ [langNodeOf root], finalEdges root pfs db0, md1⟩ :=
    insert_node_fresh (by
      rw [ids_append, ids_append]
      intro hin
      rcases List.mem_append.1 hin with h | h
      · rcases List.mem_append.1 h with h' | h'
        · exact hLfresh h'
        · rcases mem_ids.1 h' with ⟨n, hn, hid⟩
          rcases flatMap_blockNodes_mem hn with ⟨g, hg, hmem⟩
          exact hLnot (hid ▸ List.mem_flatMap.2 ⟨g, hg, hmem⟩)
      · simp only [ids, List.map_cons, List.map_nil, List.mem_singleton] at h
        exact hRL h.symm)
  have hshapeN : ((db0.nodes ++ pfs.flatMap blockNodes) ++ [repoNodeOf root])
        ++ [langNodeOf root] = nodesShape root db0 pfs [] := by
    unfold nodesShape
    simp [List.append_assoc]
  have hshapeE : finalEdges root pfs db0 = edgesShape root pfs db0 pfs [] := by
    unfold edgesShape impRem finalEdges
    simp [List.filter_true]
  have hreplay := persistFiles_replay root pfs db0 hc pfs [] rfl md1 ⟨0, 0, 0⟩
  have hendN2 : nodesShape root db0 [] pfs = finalNodes root pfs db0 := by
    unfold nodesShape finalNodes
    simp
  have hendE : edgesShape root pfs db0 [] pfs
      = db0.edges ++ pfs.flatMap blockEdges := by
    unfold edgesShape
    have himpnil : impRem root pfs db0 pfs = [] := by
      refine List.filter_eq_nil.mpr (fun e he => ?_)
      rcases impInsert_mem he with ⟨_, p, hp, hfrom, hto⟩
      rw [allImportEdges_eq] at hp
      rcases List.mem_flatMap.1 hp with ⟨g, hg, hpg⟩
      have hp1 := hc.impFrom g hg p hpg
      have hmem : fileIdOf p.1 ∈ pfs.flatMap blockIds :=
        List.mem_flatMap.2 ⟨g, hg, by rw [hp1]; simp [blockIds]⟩
      simp [hfrom, hmem]
    rw [himpnil]
    simp
  rw [hendN2, hendE] at hreplay
  rw [← hshapeN, ← hshapeE] at hreplay
  have himp := persistImportEdges_ok (allImportEdges pfs)
    (persistFiles ⟨⟨((db0.nodes ++ pfs.flatMap blockNodes) ++ [repoNodeOf root])
        ++ [langNodeOf root], finalEdges root pfs db0, md1⟩,
      ⟨0, 0, 0⟩, false⟩ pfs)
  rw [hreplay] at himp
  simp only [runIngest]
  rw [show Node.new NodeType.Repository root root = repoNodeOf root from rfl,
    show Node.new NodeType.Language "typescript" root = langNodeOf root from rfl]
  simp only [hdelR, hfilR, hRins, hdelL, hfilL, hLins,
    hreplay, himp, resolve_cross_file_calls, persistCallEdges]
  cases isRepo with
  | false =>
    simp [mdAfter, finalEdges, finalStats, Nat.zero_add]
  | true =>
    cases commit with
    | none =>
      simp [mdAfter, finalEdges, finalStats, Nat.zero_add]
    | some c =>
      have hlen : 8 ≤ c.length := hcommit c rfl
      simp [mdAfter, finalEdges, finalStats, Nat.zero_add, hlen,
        GraphDB.set_metadata]

/-- C1: for a project whose parsed files and VCS state do not change between
runs, running the full ingestion (ingest.rs ingest) twice back-to-back
succeeds, and after the second run every node kind and every edge kind has
exactly the same count as after the first run: re-ingestion is idempotent
under the deterministic identity scheme and the delete-then-reinsert
lifecycle. -/
theorem spec_C1_reingest_idempotent (root : String)
    (pfs : List (String × ParsedFile)) (db0 : GraphDB)
    (hc : CleanRun root pfs db0) (isRepo : Bool) (commit : Option String)
    (hcommit : ∀ c, commit = some c → 8 ≤ c.length) :
    ∃ st1 st2 : IngestState,
      runIngest root pfs isRepo commit db0 = .ok st1
      ∧ runIngest root pfs isRepo commit st1.db = .ok st2
      ∧ (∀ t : NodeType,
          st2.db.count_nodes_by_type t = st1.db.count_nodes_by_type t)
      ∧ (∀ t : EdgeType,
          st2.db.count_edges_by_type t = st1.db.count_edges_by_type t) := by
  refine ⟨_, _, runIngest_clean root pfs db0 hc isRepo commit hcommit,
    runIngest_replay root pfs db0 hc isRepo commit hcommit _, ?_, ?_⟩
  · intro t; rfl
  · intro t; rfl

/-- Witness for C1 at a concrete project: the clean-run hypotheses hold of
c1pfs over the empty store and re-ingestion preserves all per-kind counts. -/
theorem spec_C1_witness :
    CleanRun "/r" c1pfs c1db0
    ∧ (∀ c, (some c1commit : Option String) = some c → 8 ≤ c.length)
    ∧ ∃ st1 st2 : IngestState,
        runIngest "/r" c1pfs true (some c1commit) c1db0 = .ok st1
        ∧ runIngest "/r" c1pfs true (some c1commit) st1.db = .ok st2
        ∧ (∀ t : NodeType,
            st2.db.count_nodes_by_type t = st1.db.count_nodes_by_type t)
        ∧ (∀ t : EdgeType,
            st2.db.count_edges_by_type t = st1.db.count_edges_by_type t) :=
  ⟨⟨by decide, by decide, by intro e he; simp [c1db0] at he, by decide,
      by decide⟩,
    fun c hcc => by cases hcc; decide,
    spec_C1_reingest_idempotent "/r" c1pfs c1db0
      ⟨by decide, by decide, by intro e he; simp [c1db0] at he, by decide,
        by decide⟩
      true (some c1commit) (fun c hcc => by cases hcc; decide)⟩

end ContextGraph
